import Mathlib

/-!
A verification development for the `zoink` directory-jumper core
(package `internal/database`).  Go code is shallowly embedded:

* Go strings are modelled as `List Char` (`GoStr`); Go iterates bytes
  while the model iterates characters, which coincide on the ASCII
  fragment all claims are about.
* Go `float64` arithmetic is modelled by exact real arithmetic (`ℝ`);
  the one float-to-int truncation in the fuzzy scorer
  (`int(float64(len(pattern))/float64(len(text))*50)`) is modelled by
  exact natural division, which agrees with the float computation on
  every concrete value used below.
* `time.Now().Unix()` is passed explicitly as an `Int` argument.
* The filesystem (for `CleanupMissing`) is passed as a predicate.
* On-disk bytes are `List Nat` with values below 256.
-/

namespace Zoink

/-- Go strings, modelled as lists of characters. -/
abbrev GoStr := List Char

/-- Model of Go `strings.ToLower` on one character (ASCII fragment):
uppercase letters are shifted to lowercase, all else is unchanged. -/
def goToLowerChar (c : Char) : Char :=
  if 'A' ≤ c ∧ c ≤ 'Z' then Char.ofNat (c.toNat + 32) else c

/-- Model of Go `strings.ToLower` (ASCII fragment). -/
def goToLower (s : GoStr) : GoStr := s.map goToLowerChar

/-- Direct translation of `isWordBoundary` from `database.go`:
`char == '/' || char == '-' || char == '_' || char == ' ' || char == '.'`. -/
def isWordBoundary (c : Char) : Bool :=
  c = '/' || c = '-' || c = '_' || c = ' ' || c = '.'

/-- Model of Go `path/filepath.Base` on Unix: empty path gives `"."`;
otherwise trailing slashes are stripped, everything up to the last
slash is dropped, and an all-slash path gives `"/"`. -/
def goBase (path : GoStr) : GoStr :=
  if path = [] then ['.']
  else
    let p1 := (path.reverse.dropWhile (fun c => c = '/')).reverse
    let p2 := (p1.reverse.takeWhile (fun c => c ≠ '/')).reverse
    if p2 = [] then ['/'] else p2

/-- Direct translation of `canMatch` from `database.go`: for each pattern
character the text cursor advances until that character is found
(greedy left-to-right subsequence test). -/
def canMatch : GoStr → GoStr → Bool
  | _, [] => true
  | [], _ :: _ => false
  | t :: ts, pc :: ps => if t = pc then canMatch ts ps else canMatch ts (pc :: ps)

/-- Result of the scanning loop of `calculateFuzzyScore`: accumulated
score, the pattern characters not yet matched, and the leading penalty
accumulator. -/
structure ScanResult where
  score : Int
  rest : List (Char × Char)
  leading : Int
deriving DecidableEq

/-- Direct translation of the main loop of `calculateFuzzyScore` from
`database.go`.  Text and pattern are carried as `(original, lowercased)`
character pairs; `prev` is the original text character before the cursor
(`none` at text index 0), `isFirst` is `patternIdx == 0`, `consec` is
`consecutiveCount`, `leading` is `leadingPenalty`.  Bonus constants are
those of the source: `scoreMatch = 16`, `scoreCaseMatch = 1`,
`scoreConsecutive = 32`, `scoreWordBoundary = 8`,
`scoreFirstCharBonus = 32`, `penaltyLeading = -2`,
`penaltyMaxLeading = -12`, `penaltyNonConsecutive = -1`. -/
def scoreLoop : List (Char × Char) → List (Char × Char) → Option Char → Bool → Nat → Int → Int → ScanResult
  | [], pl, _, _, _, leading, score => ⟨score, pl, leading⟩
  | _ :: _, [], _, _, _, leading, score => ⟨score, [], leading⟩
  | (tc, tcl) :: ts, (pc, pcl) :: ps, prev, isFirst, consec, leading, score =>
    if pcl = tcl then
      let cur : Int :=
        16 + (if pc = tc then 1 else 0) + (if isFirst then 32 else 0)
          + (if 0 < consec then 32 else 0)
          + (if (match prev with | none => true | some c => isWordBoundary c) then 8 else 0)
      scoreLoop ts ps (some tc) false (consec + 1) 0 (score + cur)
    else
      let leading2 := if isFirst ∧ leading > -12 then leading - 2 else leading
      let score2 := if 0 < consec then score - 1 else score
      scoreLoop ts ((pc, pcl) :: ps) (some tc) isFirst 0 leading2 score2

/-- Direct translation of `calculateFuzzyScore` from `database.go`: run
the scanning loop; if some pattern characters were not matched return 0,
otherwise add the leading penalty and the length-ratio bonus
`int(float64(len(pattern)) / float64(len(text)) * 50)` (modelled as the
exact truncated quotient `50 * len(pattern) / len(text)`). -/
def calculateFuzzyScore (text pattern : GoStr) : Int :=
  let r := scoreLoop (text.zip (goToLower text)) (pattern.zip (goToLower pattern)) none true 0 0 0
  if r.rest ≠ [] then 0
  else
    let lengthBonus : Int := ((50 * pattern.length) / text.length : Nat)
    r.score + r.leading + lengthBonus

/-- Direct translation of `fuzzyMatch` from `database.go`: empty pattern
scores 0; the text is replaced by its basename; if the lowercased
pattern is not a greedy subsequence of the lowercased basename the score
is 0; otherwise the detailed score is computed. -/
def fuzzyMatch (text pattern : GoStr) : Int :=
  if pattern.length = 0 then 0
  else
    let base := goBase text
    let baseLower := goToLower base
    let patternLower := goToLower pattern
    if ¬ canMatch baseLower patternLower then 0
    else calculateFuzzyScore base pattern

/-- Model of the backtracking step of Go `path/filepath.Clean` at a `..`
element (`out.w--` followed by `for out.w > dotdot && out.index(out.w) != '/'
{ out.w-- }`).  The output buffer is carried reversed (head = last written
character): one character is popped, then popping continues while the
length stays above `dotdot` and the character just popped is not a slash. -/
def cleanBacktrack : List Char → Nat → List Char
  | [], _ => []
  | c :: rest, dotdot =>
    if rest.length > dotdot ∧ c ≠ '/' then cleanBacktrack rest dotdot else rest

/-- Model of the main loop of Go `path/filepath.Clean` (Unix).  `rem` is
the unread part of the path, `out` the output buffer reversed, `dotdot`
the index limiting `..` backtracking, `rooted` whether the path started
with a slash.  The four cases mirror the source `switch`: skip a slash;
skip a `.` element; handle a `..` element (backtrack, or append `..`
when not rooted); otherwise copy a component, preceded by a slash unless
the buffer is at its initial length. -/
def cleanLoop : List Char → List Char → Nat → Bool → List Char
  | [], out, _, _ => out
  | c :: rest, out, dotdot, rooted =>
    if c = '/' then cleanLoop rest out dotdot rooted
    else if c = '.' ∧ (rest = [] ∨ rest.head? = some '/') then
      cleanLoop rest out dotdot rooted
    else if c = '.' ∧ rest.head? = some '.' ∧ (rest.tail = [] ∨ rest.tail.head? = some '/') then
      if out.length > dotdot then cleanLoop rest.tail (cleanBacktrack out dotdot) dotdot rooted
      else if ¬ rooted then
        let out2 := if out.length > 0 then '/' :: out else out
        cleanLoop rest.tail ('.' :: '.' :: out2) (out2.length + 2) rooted
      else cleanLoop rest.tail out dotdot rooted
    else
      let out2 := if (rooted ∧ out.length ≠ 1) ∨ (¬ rooted ∧ out.length ≠ 0) then '/' :: out else out
      cleanLoop (rest.dropWhile (fun ch => ch ≠ '/')) ((rest.takeWhile (fun ch => ch ≠ '/')).reverse ++ c :: out2) dotdot rooted
termination_by rem => rem.length
decreasing_by
  all_goals simp_wf
  all_goals first
    | omega
    | (have h : ∀ l : List Char, (l.dropWhile (fun ch => !decide (ch = '/'))).length ≤ l.length := by
         intro l
         induction l with
         | nil => simp
         | cons c2 cs ih =>
           rw [List.dropWhile]
           by_cases hc : c2 = '/'
           · simp [hc]
           · simp only [hc, decide_False, Bool.not_false, List.length_cons]
             omega
       have h2 := h rest
       omega)

/-- Model of Go `path/filepath.Clean` (Unix): empty path gives `"."`,
otherwise the main loop runs on the path (past the leading slash when
rooted), and an empty result gives `"."`. -/
def goClean (path : GoStr) : GoStr :=
  if path = [] then ['.']
  else
    let rooted := path.head? = some '/'
    let out0 : List Char := if rooted then ['/'] else []
    let dd0 : Nat := if rooted then 1 else 0
    let rem0 := if rooted then path.tail else path
    let res := cleanLoop rem0 out0 dd0 rooted
    if res.length = 0 then ['.'] else res.reverse

/-- Model of Go `path/filepath.IsAbs` (Unix): the path starts with a slash. -/
def goIsAbs (path : GoStr) : Bool := path.head? = some '/'

/-- Direct translation of `DirectoryEntry` from `database.go`.
`VisitCount` is a Go `uint32` (a natural below `2^32` in well-formed
states), the two timestamps are Go `int64` Unix seconds. -/
structure DirectoryEntry where
  Path : GoStr
  VisitCount : Nat
  LastVisited : Int
  FirstVisited : Int
deriving DecidableEq

/-- The in-memory entry store.  The Go store is a map
`map[string]*DirectoryEntry` keyed by `entry.Path`; it is modelled as a
list of entries in an arbitrary order (standing for Go's arbitrary map
iteration order), with key uniqueness as an invariant. -/
abbrev Store := List DirectoryEntry

/-- Direct translation of `AddVisit` from `database.go` with
`time.Now().Unix()` passed as `now`: the path is cleaned
(`filepath.Clean` only — the source takes no absolute form), then either
the existing entry's count is bumped and its `LastVisited` stamped, or a
fresh entry with count 1 and both timestamps equal to `now` is inserted.
`entry.VisitCount++` acts on a Go `uint32` and silently wraps at
`2^32`, modelled as addition modulo `4294967296`.  The Go method always
returns `nil`; accordingly the model is total and consults no
filesystem. -/
def AddVisit (now : Int) (path : GoStr) (s : Store) : Store :=
  let cleanPath := goClean path
  if s.any (fun e => e.Path = cleanPath) then
    s.map (fun e =>
      if e.Path = cleanPath then
        { e with VisitCount := (e.VisitCount + 1) % 4294967296, LastVisited := now }
      else e)
  else s ++ [{ Path := cleanPath, VisitCount := 1, LastVisited := now, FirstVisited := now }]

/-- Direct translation of `RemoveDirectory` from `database.go`: delete
the entry keyed by the cleaned path (no-op when absent). -/
def RemoveDirectory (path : GoStr) (s : Store) : Store :=
  s.filter (fun e => e.Path ≠ goClean path)

/-- Direct translation of `CleanupMissing` from `database.go` with the
filesystem existence check passed as the predicate `fsExists`: entries
whose path fails the check are deleted, the others are kept unchanged. -/
def CleanupMissing (fsExists : GoStr → Bool) (s : Store) : Store :=
  s.filter (fun e => fsExists e.Path)

/-- Store states reachable through the mutating API from the empty store
(a fresh `New` on a missing file), with `time.Now()` modelled as a clock
that never runs backwards: `Reach s t` says `s` is reachable and every
visit so far was stamped at or before time `t`. -/
inductive Reach : Store → Int → Prop where
  | init (t : Int) : Reach [] t
  | visit (s : Store) (t now : Int) (p : GoStr) :
      Reach s t → t ≤ now → Reach (AddVisit now p s) now
  | remove (s : Store) (t : Int) (p : GoStr) :
      Reach s t → Reach (RemoveDirectory p s) t
  | cleanup (s : Store) (t : Int) (fsExists : GoStr → Bool) :
      Reach s t → Reach (CleanupMissing fsExists s) t

/-- N successive calls of `AddVisit` on the same path, one per
timestamp in `ts`, with no other mutation in between. -/
def AddVisits (ts : List Int) (path : GoStr) (s : Store) : Store :=
  ts.foldl (fun acc t => AddVisit t path acc) s

/-- An entry as serialized by the binary codec: the path as its raw
bytes (Go strings are byte strings), the `uint32` visit count and the
two `int64` timestamps. -/
structure FileEntry where
  pathBytes : List Nat
  visitCount : Nat
  lastVisited : Int
  firstVisited : Int
deriving DecidableEq

/-- Little-endian bytes of a Go `uint32` as written by
`binary.Write(file, binary.LittleEndian, ...)`. -/
def u32le (n : Nat) : List Nat :=
  [n % 256, n / 256 % 256, n / 65536 % 256, n / 16777216 % 256]

/-- Little-endian two's-complement bytes of a Go `int64` as written by
`binary.Write(file, binary.LittleEndian, ...)`. -/
def i64le (v : Int) : List Nat :=
  let u := (v % 18446744073709551616).toNat
  [u % 256, u / 256 % 256, u / 65536 % 256, u / 16777216 % 256,
   u / 4294967296 % 256, u / 1099511627776 % 256,
   u / 281474976710656 % 256, u / 72057594037927936 % 256]

/-- Direct translation of `writeEntry` from `database.go`: path length
as `uint32`, the raw path bytes, then `VisitCount`, `LastVisited`,
`FirstVisited`. -/
def writeEntryBytes (e : FileEntry) : List Nat :=
  u32le e.pathBytes.length ++ e.pathBytes ++ u32le e.visitCount
    ++ i64le e.lastVisited ++ i64le e.firstVisited

/-- The sequence of chunks produced by the successive write calls of
`save` in `database.go`: magic `0x5A4F494E`, version 1, entry count,
then per entry the five writes of `writeEntry`. -/
def saveChunks (es : List FileEntry) : List (List Nat) :=
  [u32le 0x5A4F494E, u32le 1, u32le es.length]
    ++ es.flatMap (fun e =>
        [u32le e.pathBytes.length, e.pathBytes, u32le e.visitCount,
         i64le e.lastVisited, i64le e.firstVisited])

/-- The full byte content written by a successful `save`. -/
def saveBytes (es : List FileEntry) : List Nat :=
  u32le 0x5A4F494E ++ u32le 1 ++ u32le es.length ++ es.flatMap writeEntryBytes

/-- The error taxonomy of the load path in `database.go`: short or
failed reads surface as I/O errors (`ioErr`), a magic mismatch as the
format error (`formatErr`), a version mismatch as the version error
(`versionErr`). -/
inductive LoadErr where
  | ioErr
  | formatErr
  | versionErr
deriving DecidableEq

/-- Model of `binary.Read` of a `uint32`: four little-endian bytes, or
failure when the stream is short. -/
def readU32 : List Nat → Option (Nat × List Nat)
  | b0 :: b1 :: b2 :: b3 :: rest =>
    some (b0 + 256 * b1 + 65536 * b2 + 16777216 * b3, rest)
  | _ => none

/-- Model of `io.ReadFull` into a buffer of `n` bytes: the next `n`
bytes, or failure when the stream is short. -/
def readBytesN (n : Nat) (bs : List Nat) : Option (List Nat × List Nat) :=
  if n ≤ bs.length then some (bs.take n, bs.drop n) else none

/-- Model of `binary.Read` of an `int64`: eight little-endian bytes
decoded as two's complement, or failure when the stream is short. -/
def readI64 : List Nat → Option (Int × List Nat)
  | b0 :: b1 :: b2 :: b3 :: b4 :: b5 :: b6 :: b7 :: rest =>
    let u := b0 + 256 * b1 + 65536 * b2 + 16777216 * b3 + 4294967296 * b4
      + 1099511627776 * b5 + 281474976710656 * b6 + 72057594037927936 * b7
    some (if u < 9223372036854775808 then (u : Int) else (u : Int) - 18446744073709551616, rest)
  | _ => none

/-- Direct translation of `readEntry` from `database.go`: path length,
path bytes via `io.ReadFull`, then the three numeric fields; any short
read fails the whole entry. -/
def readEntry (bs : List Nat) : Option (FileEntry × List Nat) := do
  let (pathLen, r1) ← readU32 bs
  let (pb, r2) ← readBytesN pathLen r1
  let (vc, r3) ← readU32 r2
  let (lv, r4) ← readI64 r3
  let (fv, r5) ← readI64 r4
  some (⟨pb, vc, lv, fv⟩, r5)

/-- The entry-reading loop of `load` in `database.go`: read exactly
`n` entries in sequence, failing as soon as one read fails. -/
def readEntries : Nat → List Nat → Option (List FileEntry × List Nat)
  | 0, bs => some ([], bs)
  | n + 1, bs => do
    let (e, r1) ← readEntry bs
    let (es, r2) ← readEntries n r1
    some (e :: es, r2)

/-- Direct translation of `load` from `database.go` on the bytes of an
existing file: magic check, version check, entry count, then the entry
loop; every failed `binary.Read`/`io.ReadFull` aborts the whole load
with an I/O error and no store is produced. -/
def loadBytes (bs : List Nat) : Except LoadErr (List FileEntry) :=
  match readU32 bs with
  | none => .error .ioErr
  | some (magic, r1) =>
    if magic ≠ 0x5A4F494E then .error .formatErr
    else
      match readU32 r1 with
      | none => .error .ioErr
      | some (version, r2) =>
        if version ≠ 1 then .error .versionErr
        else
          match readU32 r2 with
          | none => .error .ioErr
          | some (count, r3) =>
            match readEntries count r3 with
            | none => .error .ioErr
            | some (es, _) => .ok es

/-- `load` including the missing-file case of `database.go`: a missing
file (`none`) is a fresh empty store, not an error. -/
def loadFile : Option (List Nat) → Except LoadErr (List FileEntry)
  | none => .ok []
  | some bs => loadBytes bs

/-- Well-formedness of an entry as held by the Go program: the path
is a byte string of `uint32` length, the count is a `uint32`, the
timestamps are `int64`. -/
def FileEntryWF (e : FileEntry) : Prop :=
  e.pathBytes.length < 4294967296 ∧ (∀ b ∈ e.pathBytes, b < 256)
    ∧ e.visitCount < 4294967296
    ∧ -9223372036854775808 ≤ e.lastVisited ∧ e.lastVisited < 9223372036854775808
    ∧ -9223372036854775808 ≤ e.firstVisited ∧ e.firstVisited < 9223372036854775808

/-- The two files `save` touches: the database file at `db.path` and the
sibling temporary file at `db.path + ".tmp"` (`none` = absent). -/
structure DiskState where
  dbFile : Option (List Nat)
  tmpFile : Option (List Nat)
deriving DecidableEq

/-- Effect model of `save` from `database.go`.  `os.Create` truncates
the temp file; the successive `binary.Write`/`Write` calls append the
chunks of `saveChunks`; `failAt = some k` makes the `k`-th write call
fail (the source then returns the error at once — the deferred
`file.Close` only closes, it does not remove the temp file); after all
writes, `os.Rename` replaces the database file and removes the temp
name, and only a failed rename runs `os.Remove(tempPath)`.  The result
is the disk state and whether `save` returned an error. -/
def saveModel (es : List FileEntry) (d : DiskState) (failAt : Option Nat) (renameOk : Bool) :
    DiskState × Bool :=
  let chunks := saveChunks es
  match failAt with
  | some k =>
    if k < chunks.length then
      ({ dbFile := d.dbFile, tmpFile := some ((chunks.take k).flatten) }, true)
    else if renameOk then
      ({ dbFile := some (saveBytes es), tmpFile := none }, false)
    else
      ({ dbFile := d.dbFile, tmpFile := none }, true)
  | none =>
    if renameOk then
      ({ dbFile := some (saveBytes es), tmpFile := none }, false)
    else
      ({ dbFile := d.dbFile, tmpFile := none }, true)

/-- Direct translation of `calculateFrecency` from `database.go`, with
`time.Now().Unix()` passed as `now` and `float64` arithmetic modelled
by exact real arithmetic: the age in days is `(now - LastVisited) /
86400`; for positive age the recency factor is
`exp(-(log 2 / 30) * ageInDays)` floored at `0.01`, otherwise `1.0`;
the score is `VisitCount` times the factor. -/
noncomputable def calculateFrecency (now : Int) (e : DirectoryEntry) : ℝ :=
  let age : ℝ := ((now - e.LastVisited : Int) : ℝ)
  let ageInDays := age / 86400
  let recencyFactor : ℝ :=
    if ageInDays > 0 then max (Real.exp (-(Real.log 2 / 30) * ageInDays)) 0.01 else 1
  (e.VisitCount : ℝ) * recencyFactor

/-- The combined score computed by `Query` in `database.go` for a
non-empty query: the fuzzy score normalized by 1000 and clamped at 1,
weighted 0.6, plus the frecency score weighted 0.4. -/
noncomputable def combinedScore (now : Int) (query : GoStr) (e : DirectoryEntry) : ℝ :=
  let fuzzyScore := fuzzyMatch e.Path query
  let normalizedFuzzy : ℝ := min ((fuzzyScore : ℝ) / 1000) 1
  normalizedFuzzy * 0.6 + calculateFrecency now e * 0.4

/-- Model of the truncation `if len(entries) > maxResults { entries =
entries[:maxResults] }`: Go's slice expression faults (`none`) when
`maxResults` is negative, which is exactly when the slice is taken with
a nonempty result list or with `len(entries) > maxResults`. -/
def goTruncate (l : List DirectoryEntry) (maxResults : Int) : Option (List DirectoryEntry) :=
  if maxResults < (l.length : Int) then
    (if 0 ≤ maxResults then some (l.take maxResults.toNat) else none)
  else some l

/-- Direct translation of `Query` from `database.go`.  An empty query
sorts all entries by frecency descending; a non-empty query keeps the
entries with positive fuzzy score and sorts them by combined score
descending; both branches then truncate to `maxResults`.  Go's
`sort.Slice` with comparator `score(i) > score(j)` is modelled as a
comparison sort for the total relation `score(j) ≤ score(i)` (ties are
unspecified in both).  `none` models the slice-bounds panic. -/
noncomputable def Query (now : Int) (query : GoStr) (maxResults : Int) (s : Store) :
    Option (List DirectoryEntry) :=
  if query = [] then
    goTruncate
      (List.insertionSort (fun a b => calculateFrecency now b ≤ calculateFrecency now a) s)
      maxResults
  else
    let surviving := s.filter (fun e => 0 < fuzzyMatch e.Path query)
    goTruncate
      (List.insertionSort (fun a b => combinedScore now query b ≤ combinedScore now query a) surviving)
      maxResults

/-! ## Helper lemmas -/

theorem goTruncate_isSome_of_nonneg (l : List DirectoryEntry) (m : Int) (h : 0 ≤ m) :
    (goTruncate l m).isSome = true := by
  unfold goTruncate
  split_ifs <;> simp_all

theorem goTruncate_eq_none_of_neg (l : List DirectoryEntry) (m : Int) (h : m < 0) :
    goTruncate l m = none := by
  unfold goTruncate
  rw [if_pos (by exact lt_of_lt_of_le h (by positivity)), if_neg (by omega)]

theorem goTruncate_eq_some (l : List DirectoryEntry) (m : Int) (res : List DirectoryEntry)
    (h : goTruncate l m = some res) : 0 ≤ m ∧ res = l.take m.toNat := by
  unfold goTruncate at h
  split_ifs at h with h1 h2
  · exact ⟨h2, (Option.some_inj.mp h).symm⟩
  · refine ⟨le_trans (by positivity) (not_lt.mp h1), ?_⟩
    rw [← Option.some_inj.mp h]
    rw [List.take_of_length_le]
    omega

theorem AddVisit_fresh (now : Int) (p : GoStr) (s : Store)
    (h : ∀ e ∈ s, e.Path ≠ goClean p) :
    AddVisit now p s
      = s ++ [{ Path := goClean p, VisitCount := 1, LastVisited := now, FirstVisited := now }] := by
  unfold AddVisit
  rw [if_neg]
  simp only [List.any_eq_true, decide_eq_true_eq, not_exists]
  intro e hc
  exact h e hc.1 hc.2

theorem AddVisit_present (now : Int) (p : GoStr) (s1 : Store) (e : DirectoryEntry)
    (he : e.Path = goClean p) (h : ∀ e2 ∈ s1, e2.Path ≠ goClean p) :
    AddVisit now p (s1 ++ [e])
      = s1 ++ [{ e with VisitCount := (e.VisitCount + 1) % 4294967296, LastVisited := now }] := by
  unfold AddVisit
  rw [if_pos]
  · rw [List.map_append]
    congr 1
    · calc s1.map (fun e2 =>
            if e2.Path = goClean p then
              { e2 with VisitCount := (e2.VisitCount + 1) % 4294967296, LastVisited := now }
            else e2)
          = s1.map id := List.map_congr_left (fun e2 h2 => by simp [h e2 h2])
        _ = s1 := List.map_id s1
    · simp [he]
  · simp only [List.any_eq_true, decide_eq_true_eq]
    exact ⟨e, by simp, he⟩

theorem AddVisits_present (p : GoStr) (ts : List Int) (s1 : Store) (e : DirectoryEntry)
    (he : e.Path = goClean p) (h : ∀ e2 ∈ s1, e2.Path ≠ goClean p)
    (hlt : e.VisitCount < 4294967296) :
    AddVisits ts p (s1 ++ [e])
      = s1 ++ [{ Path := goClean p, VisitCount := (e.VisitCount + ts.length) % 4294967296,
                 LastVisited := ts.getLastD e.LastVisited, FirstVisited := e.FirstVisited }] := by
  induction ts generalizing e with
  | nil =>
    simp only [AddVisits, List.foldl_nil, List.length_nil, List.getLastD_nil, Nat.add_zero]
    rw [Nat.mod_eq_of_lt hlt, ← he]
  | cons t ts2 ih =>
    have step : AddVisit t p (s1 ++ [e])
        = s1 ++ [{ e with VisitCount := (e.VisitCount + 1) % 4294967296, LastVisited := t }] :=
      AddVisit_present t p s1 e he h
    simp only [AddVisits, List.foldl_cons] at ih ⊢
    rw [step, ih { e with VisitCount := (e.VisitCount + 1) % 4294967296, LastVisited := t } he
      (Nat.mod_lt _ (by norm_num))]
    simp only [List.getLastD_cons, List.length_cons]
    have harith : ((e.VisitCount + 1) % 4294967296 + ts2.length) % 4294967296
        = (e.VisitCount + (ts2.length + 1)) % 4294967296 := by
      rw [Nat.mod_add_mod]
      congr 1
      omega
    rw [harith]

/-- C6 (amended): calling `AddVisit(p)` `N` times (`N ≥ 1`, timestamps
`t0, ts...`) with no other mutation in between, starting from a store
with no entry for the cleaned form of `p`, always succeeds and leaves
exactly one new entry, keyed by the cleaned (not absolutized) form of
`p`, with `VisitCount = N mod 2^32` (the Go `uint32` counter wraps, so
this is `N` exactly whenever `N < 2^32`), `FirstVisited` the first
call's timestamp and `LastVisited` the last call's timestamp; all other
entries are untouched, and no filesystem check is involved (the model
is total in `p`). -/
theorem AddVisit_repeated_visits (p : GoStr) (s : Store) (t0 : Int) (ts : List Int)
    (h : ∀ e ∈ s, e.Path ≠ goClean p) :
    AddVisits (t0 :: ts) p s
      = s ++ [{ Path := goClean p, VisitCount := (t0 :: ts).length % 4294967296,
                LastVisited := ts.getLastD t0, FirstVisited := t0 }] := by
  have h1 : AddVisit t0 p s
      = s ++ [{ Path := goClean p, VisitCount := 1, LastVisited := t0, FirstVisited := t0 }] :=
    AddVisit_fresh t0 p s h
  simp only [AddVisits, List.foldl_cons]
  rw [h1]
  have h2 := AddVisits_present p ts s
    { Path := goClean p, VisitCount := 1, LastVisited := t0, FirstVisited := t0 } rfl h
    (by norm_num)
  simp only [AddVisits] at h2
  rw [h2]
  simp [Nat.add_comm]

/-- C6 counterexample: `AddVisit` keys the new entry by
`filepath.Clean(p)` alone; for the relative path `"foo"` the stored key
is `"foo"`, which is not an absolute path, contradicting the claim that
the entry is keyed by the cleaned absolute form of `p`. -/
theorem AddVisit_relative_key_counterexample :
    AddVisit 5 ['f', 'o', 'o'] []
      = [{ Path := ['f', 'o', 'o'], VisitCount := 1, LastVisited := 5, FirstVisited := 5 }]
    ∧ goIsAbs ['f', 'o', 'o'] = false := by
  constructor
  · simp [AddVisit, goClean, cleanLoop]
  · rfl

/-- C6 witness: two visits to `"foo"` at times 3 and 7 produce the single
entry with count 2, first visit 3, last visit 7. -/
theorem AddVisit_repeated_visits_witness :
    AddVisits [3, 7] ['f', 'o', 'o'] []
      = [{ Path := goClean ['f', 'o', 'o'], VisitCount := 2, LastVisited := 7, FirstVisited := 3 }] := by
  have h := AddVisit_repeated_visits ['f', 'o', 'o'] [] 3 [7] (by simp)
  norm_num at h
  simpa using h

/-- C2 (amended): on any failed write `save` aborts with an error and
leaves the database file untouched, but the temporary file is left on
disk holding the bytes written so far (it is removed only when the
rename itself fails); the database file is only ever replaced by the
atomic rename with the complete encoding, never left partially
written. -/
theorem save_failure_behavior (es : List FileEntry) (d : DiskState)
    (failAt : Option Nat) (renameOk : Bool) :
    ((saveModel es d failAt renameOk).2 = true → (saveModel es d failAt renameOk).1.dbFile = d.dbFile)
    ∧ ((saveModel es d failAt renameOk).1.dbFile = d.dbFile
        ∨ (saveModel es d failAt renameOk).1.dbFile = some (saveBytes es))
    ∧ (∀ k, failAt = some k → k < (saveChunks es).length →
        (saveModel es d failAt renameOk).1.tmpFile = some ((saveChunks es).take k).flatten
        ∧ (saveModel es d failAt renameOk).2 = true)
    ∧ ((∀ k, failAt = some k → (saveChunks es).length ≤ k) → renameOk = false →
        (saveModel es d failAt renameOk).1.tmpFile = none
        ∧ (saveModel es d failAt renameOk).2 = true
        ∧ (saveModel es d failAt renameOk).1.dbFile = d.dbFile)
    ∧ ((saveModel es d failAt renameOk).2 = false →
        (saveModel es d failAt renameOk).1.dbFile = some (saveBytes es)
        ∧ (saveModel es d failAt renameOk).1.tmpFile = none) := by
  rcases failAt with _ | k
  · cases renameOk <;> simp [saveModel]
  · by_cases hk : k < (saveChunks es).length
    · simp [saveModel, hk]
    · cases renameOk
      · have hres : saveModel es d (some k) false = ({ dbFile := d.dbFile, tmpFile := none }, true) := by
          simp [saveModel, hk]
        rw [hres]
        refine ⟨fun _ => rfl, Or.inl rfl, ?_, fun _ _ => ⟨rfl, rfl, rfl⟩, by simp⟩
        intro k2 hk2 hlt
        exfalso
        cases hk2
        exact hk hlt
      · have hres : saveModel es d (some k) true
            = ({ dbFile := some (saveBytes es), tmpFile := none }, false) := by
          simp [saveModel, hk]
        rw [hres]
        refine ⟨fun h => absurd h (by simp), Or.inr rfl, ?_, ?_, fun _ => ⟨rfl, rfl⟩⟩
        · intro k2 hk2 hlt
          exfalso
          cases hk2
          exact hk hlt
        · intro _ hro
          exact absurd hro (by simp)

/-- C2 counterexample: with an empty store and the very first write
failing, `save` returns an error, the database file is unchanged, but
the temporary file still exists (empty) — the source removes the temp
file only on rename failure, so the claim that any write failure
removes the temporary file is false. -/
theorem save_write_failure_keeps_tmp_counterexample :
    (saveModel [] { dbFile := some [1, 2, 3], tmpFile := none } (some 0) true).2 = true
    ∧ (saveModel [] { dbFile := some [1, 2, 3], tmpFile := none } (some 0) true).1.dbFile
        = some [1, 2, 3]
    ∧ (saveModel [] { dbFile := some [1, 2, 3], tmpFile := none } (some 0) true).1.tmpFile
        = some []
    ∧ (saveModel [] { dbFile := some [1, 2, 3], tmpFile := none } (some 0) true).1.tmpFile
        ≠ none := by
  refine ⟨rfl, rfl, rfl, by decide⟩

/-- C2 witness: a store of one entry with the third write failing leaves
the database file untouched, the save erroring, and the temp file
holding the first two chunks. -/
theorem save_failure_behavior_witness :
    (saveModel [⟨[97], 1, 5, 5⟩] { dbFile := some [9], tmpFile := none } (some 2) true).1.dbFile
      = some [9]
    ∧ (saveModel [⟨[97], 1, 5, 5⟩] { dbFile := some [9], tmpFile := none } (some 2) true).1.tmpFile
      = some ((saveChunks [⟨[97], 1, 5, 5⟩]).take 2).flatten := by
  have h := save_failure_behavior [⟨[97], 1, 5, 5⟩] { dbFile := some [9], tmpFile := none }
    (some 2) true
  have hf := h.2.2.1 2 rfl (by decide)
  exact ⟨h.1 hf.2, hf.1⟩

/-- C10: `Query` never faults when `maxResults ≥ 0`; with a negative
`maxResults` and at least one surviving entry (any entry at all for the
empty query) the truncation slice `entries[:maxResults]` faults. -/
theorem Query_total_iff_nonneg (now : Int) (q : GoStr) (m : Int) (s : Store) :
    (0 ≤ m → (Query now q m s).isSome = true)
    ∧ (m < 0 → (q = [] → s ≠ [] → Query now q m s = none)
        ∧ (q ≠ [] → s.filter (fun e => 0 < fuzzyMatch e.Path q) ≠ [] → Query now q m s = none)) := by
  constructor
  · intro hm
    by_cases hq : q = []
    · simp only [Query, if_pos hq]
      exact goTruncate_isSome_of_nonneg _ m hm
    · simp only [Query, if_neg hq]
      exact goTruncate_isSome_of_nonneg _ m hm
  · intro hm
    constructor
    · intro hq _
      simp only [Query, if_pos hq]
      exact goTruncate_eq_none_of_neg _ m hm
    · intro hq _
      simp only [Query, if_neg hq]
      exact goTruncate_eq_none_of_neg _ m hm

/-- C10 witness: at `maxResults = 3` the query succeeds on a one-entry
store; at `maxResults = -1` it faults both for the empty query and for
a query surviving the fuzzy filter. -/
theorem Query_total_iff_nonneg_witness :
    (Query 0 ['a'] 3 [{ Path := ['a'], VisitCount := 1, LastVisited := 0, FirstVisited := 0 }]).isSome = true
    ∧ Query 0 [] (-1) [{ Path := ['a'], VisitCount := 1, LastVisited := 0, FirstVisited := 0 }] = none
    ∧ Query 0 ['a'] (-1) [{ Path := ['a'], VisitCount := 1, LastVisited := 0, FirstVisited := 0 }] = none := by
  refine ⟨(Query_total_iff_nonneg 0 ['a'] 3 _).1 (by norm_num),
    ((Query_total_iff_nonneg 0 [] (-1) _).2 (by norm_num)).1 rfl (by simp),
    ((Query_total_iff_nonneg 0 ['a'] (-1) _).2 (by norm_num)).2 (by simp) ?_⟩
  decide

theorem readU32_u32le (n : Nat) (rest : List Nat) (h : n < 4294967296) :
    readU32 (u32le n ++ rest) = some (n, rest) := by
  simp only [u32le, List.cons_append, List.nil_append, readU32]
  have harith : n % 256 + 256 * (n / 256 % 256) + 65536 * (n / 65536 % 256)
      + 16777216 * (n / 16777216 % 256) = n := by omega
  rw [harith]

theorem readI64_i64le (v : Int) (rest : List Nat)
    (h1 : -9223372036854775808 ≤ v) (h2 : v < 9223372036854775808) :
    readI64 (i64le v ++ rest) = some (v, rest) := by
  have hnn : (0 : Int) ≤ v % 18446744073709551616 := Int.emod_nonneg v (by norm_num)
  have hlt : v % 18446744073709551616 < 18446744073709551616 :=
    Int.emod_lt_of_pos v (by norm_num)
  have hcast : (((v % 18446744073709551616).toNat : Nat) : Int) = v % 18446744073709551616 :=
    Int.toNat_of_nonneg hnn
  set u : Nat := (v % 18446744073709551616).toNat with hu
  have hult : u < 18446744073709551616 := by omega
  simp only [i64le, List.cons_append, List.nil_append, readI64, ← hu]
  have harith : u % 256 + 256 * (u / 256 % 256) + 65536 * (u / 65536 % 256)
      + 16777216 * (u / 16777216 % 256) + 4294967296 * (u / 4294967296 % 256)
      + 1099511627776 * (u / 1099511627776 % 256)
      + 281474976710656 * (u / 281474976710656 % 256)
      + 72057594037927936 * (u / 72057594037927936 % 256) = u := by omega
  rw [harith]
  have hval : (if u < 9223372036854775808 then (u : Int) else (u : Int) - 18446744073709551616) = v := by
    split_ifs with hsplit <;> omega
  rw [hval]

theorem readBytesN_exact (l rest : List Nat) :
    readBytesN l.length (l ++ rest) = some (l, rest) := by
  unfold readBytesN
  rw [if_pos (by simp)]
  rw [List.take_left, List.drop_left]

theorem readEntry_writeEntryBytes (e : FileEntry) (rest : List Nat) (h : FileEntryWF e) :
    readEntry (writeEntryBytes e ++ rest) = some (e, rest) := by
  obtain ⟨h1, _, h3, h4, h5, h6, h7⟩ := h
  have hshape : writeEntryBytes e ++ rest
      = u32le e.pathBytes.length ++ (e.pathBytes ++ (u32le e.visitCount
          ++ (i64le e.lastVisited ++ (i64le e.firstVisited ++ rest)))) := by
    simp [writeEntryBytes, List.append_assoc]
  rw [hshape, readEntry]
  rw [readU32_u32le _ _ h1]
  simp only [Option.bind_eq_bind, Option.some_bind]
  rw [readBytesN_exact]
  simp only [Option.some_bind]
  rw [readU32_u32le _ _ h3]
  simp only [Option.some_bind]
  rw [readI64_i64le _ _ h4 h5]
  simp only [Option.some_bind]
  rw [readI64_i64le _ _ h6 h7]
  simp only [Option.some_bind]

theorem readEntries_flatMap (es : List FileEntry) (rest : List Nat)
    (h : ∀ e ∈ es, FileEntryWF e) :
    readEntries es.length (es.flatMap writeEntryBytes ++ rest) = some (es, rest) := by
  induction es with
  | nil => simp [readEntries]
  | cons e es2 ih =>
    simp only [List.flatMap_cons, List.length_cons, List.append_assoc]
    rw [readEntries]
    rw [readEntry_writeEntryBytes e _ (h e (by simp))]
    simp only [Option.bind_eq_bind, Option.some_bind]
    rw [ih (fun e2 h2 => h e2 (by simp [h2]))]
    simp only [Option.some_bind]

/-- C1: saving any well-formed finite entry collection (any size,
including 0, 1 and 1000; entry count and path lengths within `uint32`,
counts within `uint32`, timestamps within `int64`) and re-opening the
resulting file yields exactly the same collection of
`(Path, VisitCount, LastVisited, FirstVisited)` tuples. -/
theorem save_load_roundTrip (es : List FileEntry)
    (hlen : es.length < 4294967296) (h : ∀ e ∈ es, FileEntryWF e) :
    loadFile (some (saveBytes es)) = .ok es := by
  show loadBytes (saveBytes es) = .ok es
  unfold saveBytes loadBytes
  simp only [List.append_assoc]
  rw [show es.flatMap writeEntryBytes = es.flatMap writeEntryBytes ++ [] from (List.append_nil _).symm]
  simp only [readU32_u32le _ _ (show (1515145550 : Nat) < 4294967296 by norm_num),
    readU32_u32le _ _ (show (1 : Nat) < 4294967296 by norm_num),
    readU32_u32le _ _ hlen,
    readEntries_flatMap es [] h]
  norm_num

theorem readU32_short (bs : List Nat) (h : bs.length < 4) : readU32 bs = none := by
  rcases bs with _ | ⟨a, _ | ⟨b, _ | ⟨c, _ | ⟨d, rest⟩⟩⟩⟩
  · rfl
  · rfl
  · rfl
  · rfl
  · exfalso
    simp at h
    omega

theorem readI64_short (bs : List Nat) (h : bs.length < 8) : readI64 bs = none := by
  rcases bs with _ | ⟨a, _ | ⟨b, _ | ⟨c, _ | ⟨d, _ | ⟨e, _ | ⟨f, _ | ⟨g, _ | ⟨i, rest⟩⟩⟩⟩⟩⟩⟩⟩
  case nil => rfl
  case cons.nil => rfl
  case cons.cons.nil => rfl
  case cons.cons.cons.nil => rfl
  case cons.cons.cons.cons.nil => rfl
  case cons.cons.cons.cons.cons.nil => rfl
  case cons.cons.cons.cons.cons.cons.nil => rfl
  case cons.cons.cons.cons.cons.cons.cons.nil => rfl
  case cons.cons.cons.cons.cons.cons.cons.cons =>
    exfalso
    simp at h
    omega

theorem readBytesN_short (n : Nat) (bs : List Nat) (h : bs.length < n) :
    readBytesN n bs = none := by
  unfold readBytesN
  rw [if_neg]
  omega

theorem take_append_ge (l r : List Nat) (m : Nat) (h : l.length ≤ m) :
    (l ++ r).take m = l ++ r.take (m - l.length) := by
  rw [List.take_append_eq_append_take, List.take_of_length_le h]

theorem readU32_take (n : Nat) (rest : List Nat) (m : Nat) (hn : n < 4294967296) :
    readU32 ((u32le n ++ rest).take m)
      = if m < 4 then none else some (n, rest.take (m - 4)) := by
  split_ifs with hm
  · apply readU32_short
    simp only [List.length_take]
    omega
  · rw [take_append_ge _ _ _ (by simp [u32le]; omega)]
    rw [show (u32le n).length = 4 from by simp [u32le]]
    exact readU32_u32le n _ hn

theorem readI64_take (v : Int) (rest : List Nat) (m : Nat)
    (h1 : -9223372036854775808 ≤ v) (h2 : v < 9223372036854775808) :
    readI64 ((i64le v ++ rest).take m)
      = if m < 8 then none else some (v, rest.take (m - 8)) := by
  split_ifs with hm
  · apply readI64_short
    simp only [List.length_take]
    omega
  · rw [take_append_ge _ _ _ (by simp [i64le]; omega)]
    rw [show (i64le v).length = 8 from by simp [i64le]]
    exact readI64_i64le v _ h1 h2

theorem readBytesN_take (l rest : List Nat) (m : Nat) :
    readBytesN l.length ((l ++ rest).take m)
      = if m < l.length then none else some (l, rest.take (m - l.length)) := by
  split_ifs with hm
  · apply readBytesN_short
    simp only [List.length_take]
    omega
  · rw [take_append_ge _ _ _ (not_lt.mp hm)]
    exact readBytesN_exact l _

theorem writeEntryBytes_length (e : FileEntry) :
    (writeEntryBytes e).length = e.pathBytes.length + 24 := by
  simp [writeEntryBytes, u32le, i64le]

theorem readEntry_take (e : FileEntry) (rest : List Nat) (m : Nat) (h : FileEntryWF e) :
    readEntry ((writeEntryBytes e ++ rest).take m)
      = if m < (writeEntryBytes e).length then none
        else some (e, rest.take (m - (writeEntryBytes e).length)) := by
  obtain ⟨h1, _, h3, h4, h5, h6, h7⟩ := h
  have hlen := writeEntryBytes_length e
  have hshape : writeEntryBytes e ++ rest
      = u32le e.pathBytes.length ++ (e.pathBytes ++ (u32le e.visitCount
          ++ (i64le e.lastVisited ++ (i64le e.firstVisited ++ rest)))) := by
    simp [writeEntryBytes, List.append_assoc]
  rw [hshape, readEntry]
  rw [readU32_take _ _ _ h1]
  by_cases hm4 : m < 4
  · rw [if_pos hm4]
    simp only [Option.bind_eq_bind, Option.none_bind]
    rw [if_pos (by omega)]
  · rw [if_neg hm4]
    simp only [Option.bind_eq_bind, Option.some_bind]
    rw [readBytesN_take]
    by_cases hmp : m - 4 < e.pathBytes.length
    · rw [if_pos hmp]
      simp only [Option.none_bind]
      rw [if_pos (by omega)]
    · rw [if_neg hmp]
      simp only [Option.some_bind]
      rw [readU32_take _ _ _ h3]
      by_cases hm8 : m - 4 - e.pathBytes.length < 4
      · rw [if_pos hm8]
        simp only [Option.none_bind]
        rw [if_pos (by omega)]
      · rw [if_neg hm8]
        simp only [Option.some_bind]
        rw [readI64_take _ _ _ h4 h5]
        by_cases hm16 : m - 4 - e.pathBytes.length - 4 < 8
        · rw [if_pos hm16]
          simp only [Option.none_bind]
          rw [if_pos (by omega)]
        · rw [if_neg hm16]
          simp only [Option.some_bind]
          rw [readI64_take _ _ _ h6 h7]
          by_cases hm24 : m - 4 - e.pathBytes.length - 4 - 8 < 8
          · rw [if_pos hm24]
            simp only [Option.none_bind]
            rw [if_pos (by omega)]
          · rw [if_neg hm24]
            simp only [Option.some_bind]
            rw [if_neg (by omega)]
            have harith : m - 4 - e.pathBytes.length - 4 - 8 - 8
                = m - (writeEntryBytes e).length := by omega
            rw [harith]

theorem readEntries_take (es : List FileEntry) (rest : List Nat) (m : Nat)
    (h : ∀ e ∈ es, FileEntryWF e) :
    readEntries es.length ((es.flatMap writeEntryBytes ++ rest).take m)
      = if m < (es.flatMap writeEntryBytes).length then none
        else some (es, rest.take (m - (es.flatMap writeEntryBytes).length)) := by
  induction es generalizing rest m with
  | nil => simp [readEntries]
  | cons e es2 ih =>
    have hlen := writeEntryBytes_length e
    simp only [List.flatMap_cons, List.length_cons, List.append_assoc]
    rw [readEntries]
    rw [readEntry_take e _ m (h e (by simp))]
    by_cases hm1 : m < (writeEntryBytes e).length
    · rw [if_pos hm1]
      simp only [Option.bind_eq_bind, Option.none_bind]
      rw [if_pos (by rw [List.length_append]; omega)]
    · rw [if_neg hm1]
      simp only [Option.bind_eq_bind, Option.some_bind]
      rw [ih _ _ (fun e2 h2 => h e2 (by simp [h2]))]
      by_cases hm2 : m - (writeEntryBytes e).length < (es2.flatMap writeEntryBytes).length
      · rw [if_pos hm2]
        simp only [Option.none_bind]
        rw [if_pos (by rw [List.length_append]; omega)]
      · rw [if_neg hm2]
        simp only [Option.some_bind]
        rw [if_neg (by rw [List.length_append]; omega)]
        have harith : m - (writeEntryBytes e).length - (es2.flatMap writeEntryBytes).length
            = m - ((writeEntryBytes e).length + (es2.flatMap writeEntryBytes).length) := by omega
        simp only [List.length_append]
        rw [harith]

theorem saveBytes_length (es : List FileEntry) :
    (saveBytes es).length = 12 + (es.flatMap writeEntryBytes).length := by
  simp [saveBytes, u32le, List.length_append]
  omega

/-- C7: the load path of `database.go`.  A missing file yields an empty
store and no error; a first four bytes different from the little-endian
magic `0x5A4F494E` (bytes `4E 49 4F 5A`) yield the format error; a
version field other than 1 yields the version error; a file shorter
than the magic field, and any strict truncation of a valid saved file,
yield an I/O error — the load aborts and no store value is produced
(`loadFile` returns either an error or a complete store, by
construction). -/
theorem load_error_taxonomy :
    (loadFile none = .ok [])
    ∧ (∀ b0 b1 b2 b3 rest, b0 < 256 → b1 < 256 → b2 < 256 → b3 < 256 →
        [b0, b1, b2, b3] ≠ [78, 73, 79, 90] →
        loadFile (some (b0 :: b1 :: b2 :: b3 :: rest)) = .error .formatErr)
    ∧ (∀ bs : List Nat, bs.length < 4 → loadFile (some bs) = .error .ioErr)
    ∧ (∀ v rest, v < 4294967296 → v ≠ 1 →
        loadFile (some (u32le 1515145550 ++ (u32le v ++ rest))) = .error .versionErr)
    ∧ (∀ es, es.length < 4294967296 → (∀ e ∈ es, FileEntryWF e) →
        ∀ m, m < (saveBytes es).length →
          loadFile (some ((saveBytes es).take m)) = .error .ioErr) := by
  refine ⟨rfl, ?_, ?_, ?_, ?_⟩
  · intro b0 b1 b2 b3 rest hb0 hb1 hb2 hb3 hneq
    simp only [loadFile]
    unfold loadBytes
    simp only [readU32]
    rw [if_pos]
    intro heq
    apply hneq
    have hb : b0 = 78 ∧ b1 = 73 ∧ b2 = 79 ∧ b3 = 90 := by omega
    simp [hb.1, hb.2.1, hb.2.2.1, hb.2.2.2]
  · intro bs hbs
    simp only [loadFile]
    unfold loadBytes
    rw [readU32_short bs hbs]
  · intro v rest hv hv1
    simp only [loadFile]
    unfold loadBytes
    rw [readU32_u32le _ _ (by norm_num)]
    dsimp only
    rw [if_neg (by simp)]
    rw [readU32_u32le _ _ hv]
    dsimp only
    rw [if_pos (by simpa using hv1)]
  · intro es hlen h m hm
    simp only [loadFile]
    have hshape : saveBytes es
        = u32le 1515145550 ++ (u32le 1 ++ (u32le es.length ++ (es.flatMap writeEntryBytes ++ []))) := by
      simp [saveBytes, List.append_assoc]
    have htot := saveBytes_length es
    rw [hshape]
    unfold loadBytes
    rw [readU32_take _ _ _ (by norm_num)]
    by_cases hm4 : m < 4
    · rw [if_pos hm4]
    · rw [if_neg hm4]
      dsimp only
      rw [if_neg (by simp)]
      rw [readU32_take _ _ _ (by norm_num)]
      by_cases hm8 : m - 4 < 4
      · rw [if_pos hm8]
      · rw [if_neg hm8]
        dsimp only
        rw [if_neg (by simp)]
        rw [readU32_take _ _ _ hlen]
        by_cases hm12 : m - 4 - 4 < 4
        · rw [if_pos hm12]
        · rw [if_neg hm12]
          dsimp only
          rw [readEntries_take es [] _ h]
          rw [if_pos (by omega)]

/-- C7 witness: the taxonomy at concrete inputs — no file, zeroed magic,
a two-byte file, version 2, and a five-byte truncation of a valid
one-entry file. -/
theorem load_error_taxonomy_witness :
    loadFile none = .ok []
    ∧ loadFile (some [0, 0, 0, 0]) = .error .formatErr
    ∧ loadFile (some [78, 73]) = .error .ioErr
    ∧ loadFile (some (u32le 1515145550 ++ (u32le 2 ++ []))) = .error .versionErr
    ∧ loadFile (some ((saveBytes [⟨[97], 1, 0, 0⟩]).take 5)) = .error .ioErr := by
  refine ⟨load_error_taxonomy.1,
    load_error_taxonomy.2.1 0 0 0 0 [] (by norm_num) (by norm_num) (by norm_num) (by norm_num)
      (by decide),
    load_error_taxonomy.2.2.1 [78, 73] (by norm_num),
    load_error_taxonomy.2.2.2.1 2 [] (by norm_num) (by norm_num),
    load_error_taxonomy.2.2.2.2 [⟨[97], 1, 0, 0⟩] (by norm_num) ?_ 5 (by decide)⟩
  intro e he
  fin_cases he
  exact ⟨by norm_num, by decide, by norm_num, by norm_num, by norm_num, by norm_num, by norm_num⟩

theorem getLastD_replicate (n : Nat) (a : Int) : (List.replicate n a).getLastD a = a := by
  induction n with
  | zero => rfl
  | succ n ih =>
    rw [List.replicate_succ, List.getLastD_cons]
    exact ih

theorem Reach_addVisits_replicate (n : Nat) (s : Store) (t : Int) (p : GoStr)
    (h : Reach s t) : Reach (AddVisits (List.replicate n t) p s) t := by
  induction n generalizing s with
  | zero => exact h
  | succ n ih =>
    rw [List.replicate_succ]
    simp only [AddVisits, List.foldl_cons]
    have h2 := ih (AddVisit t p s) (Reach.visit s t t p h (le_refl t))
    simpa [AddVisits] using h2

/-- C8 (amended): in every store state reachable from the empty store
through `AddVisit` / `RemoveDirectory` / `CleanupMissing` (with a
monotone clock), every entry satisfies `FirstVisited ≤ LastVisited` and
`VisitCount < 2^32` (and no visit is stamped after the clock), and
entry paths are pairwise distinct under exact case-sensitive comparison
of their cleaned forms (the map keys).  `VisitCount ≥ 1` is not an
invariant: after exactly `2^32` visits to one path the `uint32` counter
wraps to 0 — see the counterexample. -/
theorem Reach_store_invariant (s : Store) (t : Int) (h : Reach s t) :
    (∀ e ∈ s, e.FirstVisited ≤ e.LastVisited ∧ e.VisitCount < 4294967296 ∧ e.LastVisited ≤ t)
    ∧ (s.map (fun e => e.Path)).Nodup := by
  induction h with
  | init t => simp
  | visit s t now p hr hle ih =>
    unfold AddVisit
    by_cases hex : s.any (fun e => e.Path = goClean p)
    · rw [if_pos hex]
      constructor
      · intro e he
        obtain ⟨e0, he0, hfe⟩ := List.mem_map.mp he
        by_cases hp : e0.Path = goClean p
        · rw [if_pos hp] at hfe
          obtain ⟨hfl, hc, hlt⟩ := ih.1 e0 he0
          subst hfe
          refine ⟨by simp <;> omega, ?_, by simp <;> omega⟩
          show (e0.VisitCount + 1) % 4294967296 < 4294967296
          exact Nat.mod_lt _ (by norm_num)
        · rw [if_neg hp] at hfe
          subst hfe
          obtain ⟨hfl, hc, hlt⟩ := ih.1 e0 he0
          exact ⟨hfl, hc, by omega⟩
      · have hpaths : (s.map (fun e =>
            if e.Path = goClean p then
              { e with VisitCount := (e.VisitCount + 1) % 4294967296, LastVisited := now }
            else e)).map (fun e => e.Path) = s.map (fun e => e.Path) := by
          rw [List.map_map]
          apply List.map_congr_left
          intro e he
          by_cases hp : e.Path = goClean p <;> simp [hp]
        rw [hpaths]
        exact ih.2
    · rw [if_neg hex]
      constructor
      · intro e he
        rcases List.mem_append.mp he with hin | hnew
        · obtain ⟨hfl, hc, hlt⟩ := ih.1 e hin
          exact ⟨hfl, hc, by omega⟩
        · simp only [List.mem_singleton] at hnew
          subst hnew
          exact ⟨le_refl _, by norm_num, le_refl _⟩
      · rw [List.map_append]
        simp only [List.map_cons, List.map_nil]
        rw [List.nodup_append]
        refine ⟨ih.2, List.nodup_singleton _, ?_⟩
        intro a ha hb
        simp only [List.mem_singleton] at hb
        subst hb
        obtain ⟨e0, he0, hpe⟩ := List.mem_map.mp ha
        simp only [List.any_eq_true, decide_eq_true_eq, not_exists] at hex
        exact hex e0 ⟨he0, hpe⟩
  | remove s t p hr ih =>
    unfold RemoveDirectory
    constructor
    · intro e he
      exact ih.1 e (List.mem_of_mem_filter he)
    · exact ih.2.sublist (List.Sublist.map _ (List.filter_sublist s))
  | cleanup s t fsExists hr ih =>
    unfold CleanupMissing
    constructor
    · intro e he
      exact ih.1 e (List.mem_of_mem_filter he)
    · exact ih.2.sublist (List.Sublist.map _ (List.filter_sublist s))

theorem AddVisits_replicate_fresh (m : Nat) (t : Int) (p : GoStr) :
    AddVisits (List.replicate (m + 1) t) p []
      = [{ Path := goClean p, VisitCount := (m + 1) % 4294967296,
           LastVisited := t, FirstVisited := t }] := by
  rw [List.replicate_succ]
  simp only [AddVisits, List.foldl_cons]
  have hfresh := AddVisit_fresh t p [] (by simp)
  have h2 := AddVisits_present p (List.replicate m t) []
    { Path := goClean p, VisitCount := 1, LastVisited := t, FirstVisited := t }
    rfl (by simp) (by norm_num)
  simp only [AddVisits] at h2
  rw [hfresh, h2]
  rw [getLastD_replicate]
  simp [Nat.add_comm]

/-- C8 counterexample: `VisitCount ≥ 1` does not hold in every reachable
state.  Starting from the empty store, `2^32` calls of `AddVisit` on
the path `"a"` (all at time 5) wrap the `uint32` counter to 0, giving a
reachable store whose single entry has `VisitCount = 0`. -/
theorem Reach_count_wrap_counterexample :
    Reach [{ Path := ['a'], VisitCount := 0, LastVisited := 5, FirstVisited := 5 }] 5
    ∧ ¬ (∀ e ∈ ([{ Path := ['a'], VisitCount := 0, LastVisited := 5, FirstVisited := 5 }] : Store), 1 ≤ e.VisitCount) := by
  have hclean : goClean ['a'] = ['a'] := by simp [goClean, cleanLoop]
  have hall := AddVisits_replicate_fresh 4294967295 5 ['a']
  rw [hclean] at hall
  norm_num at hall
  constructor
  · have hreach := Reach_addVisits_replicate 4294967296 [] 5 ['a'] (Reach.init 5)
    rwa [hall] at hreach
  · intro hforall
    have h0 := hforall { Path := ['a'], VisitCount := 0, LastVisited := 5, FirstVisited := 5 }
      (by simp)
    simp at h0

/-- C8 witness: the amended invariant read off at a concrete reachable
store, one visit at time 5 starting from the empty store at time 3. -/
theorem Reach_store_invariant_witness :
    (∀ e ∈ AddVisit 5 ['a'] [],
        e.FirstVisited ≤ e.LastVisited ∧ e.VisitCount < 4294967296 ∧ e.LastVisited ≤ 5)
    ∧ ((AddVisit 5 ['a'] []).map (fun e => e.Path)).Nodup :=
  Reach_store_invariant (AddVisit 5 ['a'] []) 5
    (Reach.visit [] 3 5 ['a'] (Reach.init 3) (by norm_num))

theorem scoreLoop_nil_pattern (tl : List (Char × Char)) (prev : Option Char)
    (isFirst : Bool) (consec : Nat) (leading score : Int) :
    scoreLoop tl [] prev isFirst consec leading score = ⟨score, [], leading⟩ := by
  cases tl <;> rfl

theorem canMatch_iff_sublist (t p : GoStr) :
    canMatch t p = true ↔ p.Sublist t := by
  induction t generalizing p with
  | nil =>
    cases p with
    | nil => simp [canMatch]
    | cons pc ps => simp [canMatch]
  | cons c ts ih =>
    cases p with
    | nil => simp [canMatch]
    | cons pc ps =>
      simp only [canMatch]
      by_cases hc : c = pc
      · subst hc
        rw [if_pos rfl]
        rw [ih ps]
        exact (List.cons_sublist_cons).symm
      · rw [if_neg hc]
        rw [ih (pc :: ps)]
        constructor
        · exact fun h => h.cons c
        · intro h
          cases h with
          | cons _ h2 => exact h2
          | cons₂ _ h2 => exact absurd rfl hc

theorem scoreLoop_rest_nil_iff (tl : List (Char × Char)) (pl : List (Char × Char))
    (prev : Option Char) (isFirst : Bool) (consec : Nat) (leading score : Int) :
    ((scoreLoop tl pl prev isFirst consec leading score).rest = []
      ↔ canMatch (tl.map Prod.snd) (pl.map Prod.snd) = true) := by
  induction tl generalizing pl prev isFirst consec leading score with
  | nil =>
    cases pl with
    | nil => simp [scoreLoop, canMatch]
    | cons pp ps => simp [scoreLoop, canMatch]
  | cons tp ts ih =>
    obtain ⟨tc, tcl⟩ := tp
    cases pl with
    | nil => simp [scoreLoop_nil_pattern, canMatch]
    | cons pp ps =>
      obtain ⟨pc, pcl⟩ := pp
      simp only [scoreLoop, List.map_cons, canMatch]
      by_cases hm : pcl = tcl
      · rw [if_pos hm, if_pos hm.symm]
        exact ih ps (some tc) false (consec + 1) 0 _
      · rw [if_neg hm, if_neg (show ¬ tcl = pcl from fun h2 => hm h2.symm)]
        exact ih ((pc, pcl) :: ps) (some tc) isFirst 0 _ _

theorem scoreLoop_leading_zero (tl : List (Char × Char)) (pl : List (Char × Char))
    (prev : Option Char) (isFirst : Bool) (consec : Nat) (leading score : Int)
    (hpl : pl ≠ []) (hdone : (scoreLoop tl pl prev isFirst consec leading score).rest = []) :
    (scoreLoop tl pl prev isFirst consec leading score).leading = 0 := by
  induction tl generalizing pl prev isFirst consec leading score with
  | nil =>
    exact absurd hdone (by simpa [scoreLoop] using hpl)
  | cons tp ts ih =>
    obtain ⟨tc, tcl⟩ := tp
    cases pl with
    | nil => exact absurd rfl hpl
    | cons pp ps =>
      obtain ⟨pc, pcl⟩ := pp
      simp only [scoreLoop] at hdone ⊢
      by_cases hm : pcl = tcl
      · rw [if_pos hm] at hdone ⊢
        cases ps with
        | nil => rw [scoreLoop_nil_pattern]
        | cons q qs =>
          exact ih (q :: qs) (some tc) false (consec + 1) 0 _ (by simp) hdone
      · rw [if_neg hm] at hdone ⊢
        exact ih ((pc, pcl) :: ps) (some tc) isFirst 0 _ _ (by simp) hdone

theorem scoreLoop_rest_length_le (tl : List (Char × Char)) (pl : List (Char × Char))
    (prev : Option Char) (isFirst : Bool) (consec : Nat) (leading score : Int) :
    (scoreLoop tl pl prev isFirst consec leading score).rest.length ≤ pl.length := by
  induction tl generalizing pl prev isFirst consec leading score with
  | nil => cases pl <;> simp [scoreLoop]
  | cons tp ts ih =>
    obtain ⟨tc, tcl⟩ := tp
    cases pl with
    | nil => simp [scoreLoop_nil_pattern]
    | cons pp ps =>
      obtain ⟨pc, pcl⟩ := pp
      simp only [scoreLoop]
      by_cases hm : pcl = tcl
      · rw [if_pos hm]
        calc (scoreLoop ts ps (some tc) false (consec + 1) 0 _).rest.length
            ≤ ps.length := ih ps (some tc) false (consec + 1) 0 _
          _ ≤ (⟨pc, pcl⟩ :: ps : List (Char × Char)).length := by simp
      · rw [if_neg hm]
        exact ih ((pc, pcl) :: ps) (some tc) isFirst 0 _ _

theorem scoreLoop_score_lb (tl : List (Char × Char)) (pl : List (Char × Char))
    (prev : Option Char) (isFirst : Bool) (consec : Nat) (leading score : Int) :
    score + 15 * ((pl.length : Int) - (scoreLoop tl pl prev isFirst consec leading score).rest.length)
      - (if 0 < consec then 1 else 0)
      ≤ (scoreLoop tl pl prev isFirst consec leading score).score := by
  induction tl generalizing pl prev isFirst consec leading score with
  | nil =>
    cases pl <;> simp [scoreLoop] <;> split_ifs <;> omega
  | cons tp ts ih =>
    obtain ⟨tc, tcl⟩ := tp
    cases pl with
    | nil =>
      simp [scoreLoop_nil_pattern]
      split_ifs <;> omega
    | cons pp ps =>
      obtain ⟨pc, pcl⟩ := pp
      simp only [scoreLoop]
      by_cases hm : pcl = tcl
      · rw [if_pos hm]
        have hrec := ih ps (some tc) false (consec + 1) 0
          (score + (16 + (if pc = tc then 1 else 0) + (if isFirst then 32 else 0)
            + (if 0 < consec then 32 else 0)
            + (if (match prev with | none => true | some c => isWordBoundary c) then 8 else 0)))
        have hlen := scoreLoop_rest_length_le ts ps (some tc) false (consec + 1) 0
          (score + (16 + (if pc = tc then 1 else 0) + (if isFirst then 32 else 0)
            + (if 0 < consec then 32 else 0)
            + (if (match prev with | none => true | some c => isWordBoundary c) then 8 else 0)))
        simp only [List.length_cons]
        split_ifs at hrec ⊢ <;> push_cast at hrec ⊢ <;> omega
      · rw [if_neg hm]
        have hrec := ih ((pc, pcl) :: ps) (some tc) isFirst 0
          (if isFirst = true ∧ leading > -12 then leading - 2 else leading)
          (if 0 < consec then score - 1 else score)
        have hlen := scoreLoop_rest_length_le ts ((pc, pcl) :: ps) (some tc) isFirst 0
          (if isFirst = true ∧ leading > -12 then leading - 2 else leading)
          (if 0 < consec then score - 1 else score)
        split_ifs at hrec ⊢ <;> push_cast at hrec ⊢ <;> omega

theorem goToLower_length (l : GoStr) : (goToLower l).length = l.length := by
  simp [goToLower]

theorem zip_lower_snd (l : GoStr) : (l.zip (goToLower l)).map Prod.snd = goToLower l :=
  List.map_snd_zip _ _ (le_of_eq (goToLower_length l))

theorem zip_lower_length (l : GoStr) : (l.zip (goToLower l)).length = l.length := by
  rw [List.length_zip, goToLower_length]
  exact min_self _

theorem calculateFuzzyScore_pos (text pattern : GoStr) (hp : pattern ≠ [])
    (hcm : canMatch (goToLower text) (goToLower pattern) = true) :
    0 < calculateFuzzyScore text pattern := by
  unfold calculateFuzzyScore
  have hrest : (scoreLoop (text.zip (goToLower text)) (pattern.zip (goToLower pattern))
      none true 0 0 0).rest = [] := by
    rw [scoreLoop_rest_nil_iff]
    rwa [zip_lower_snd, zip_lower_snd]
  rw [if_neg (by simpa using hrest)]
  have hlead : (scoreLoop (text.zip (goToLower text)) (pattern.zip (goToLower pattern))
      none true 0 0 0).leading = 0 := by
    apply scoreLoop_leading_zero _ _ _ _ _ _ _ _ hrest
    intro hz
    apply hp
    have := congrArg List.length hz
    rw [zip_lower_length] at this
    exact List.length_eq_zero.mp this
  have hlb := scoreLoop_score_lb (text.zip (goToLower text))
    (pattern.zip (goToLower pattern)) none true 0 0 0
  rw [hrest] at hlb
  norm_num at hlb
  have hplen : 0 < pattern.length := List.length_pos.mpr hp
  show 0 < (scoreLoop (text.zip (goToLower text)) (pattern.zip (goToLower pattern))
      none true 0 0 0).score
    + (scoreLoop (text.zip (goToLower text)) (pattern.zip (goToLower pattern))
        none true 0 0 0).leading
    + (((50 * pattern.length) / text.length : Nat) : Int)
  rw [hlead]
  have hbonus : (0 : Int) ≤ (((50 * pattern.length) / text.length : Nat) : Int) :=
    Int.ofNat_nonneg _
  have hd := goToLower_length pattern
  omega

theorem fuzzyMatch_pos_iff (text pattern : GoStr) :
    0 < fuzzyMatch text pattern
      ↔ pattern ≠ [] ∧ (goToLower pattern).Sublist (goToLower (goBase text)) := by
  unfold fuzzyMatch
  by_cases hp : pattern.length = 0
  · rw [if_pos hp]
    simp [List.length_eq_zero.mp hp]
  · rw [if_neg hp]
    have hpne : pattern ≠ [] := fun h => hp (by simp [h])
    by_cases hcm : canMatch (goToLower (goBase text)) (goToLower pattern) = true
    · rw [if_neg (by simpa using hcm)]
      constructor
      · intro _
        exact ⟨hpne, (canMatch_iff_sublist _ _).mp hcm⟩
      · intro _
        exact calculateFuzzyScore_pos (goBase text) pattern hpne hcm
    · rw [if_pos (by simpa using hcm)]
      constructor
      · intro h0
        exact absurd h0 (lt_irrefl 0)
      · intro ⟨_, hsub⟩
        exact absurd ((canMatch_iff_sublist _ _).mpr hsub) hcm

theorem fuzzyMatch_zero_or_pos (text pattern : GoStr) :
    fuzzyMatch text pattern = 0 ∨ 0 < fuzzyMatch text pattern := by
  unfold fuzzyMatch
  by_cases hp : pattern.length = 0
  · rw [if_pos hp]
    exact Or.inl rfl
  · rw [if_neg hp]
    by_cases hcm : canMatch (goToLower (goBase text)) (goToLower pattern) = true
    · rw [if_neg (by simpa using hcm)]
      exact Or.inr (calculateFuzzyScore_pos (goBase text) pattern
        (fun h => hp (by simp [h])) hcm)
    · rw [if_pos (by simpa using hcm)]
      exact Or.inl rfl

theorem goBase_ne_nil (text : GoStr) : goBase text ≠ [] := by
  unfold goBase
  dsimp only
  split_ifs with h1 h2
  · simp
  · simp
  · exact h2

/-- C3 (amended): `fuzzyMatch(text, pattern)` is strictly positive if
and only if the pattern is non-empty and is a case-insensitive ordered
subsequence of `basename(text)`; otherwise it is 0.  In particular
`fuzzyMatch(text, "") = 0` for every text.  `basename(text)` is never
the empty string — Go's `filepath.Base` maps the empty path to `"."`,
so the empty text behaves like the text `"."` rather than scoring 0
against every non-empty pattern. -/
theorem fuzzyMatch_positive_characterization :
    (∀ text pattern : GoStr,
        0 < fuzzyMatch text pattern
          ↔ pattern ≠ [] ∧ (goToLower pattern).Sublist (goToLower (goBase text)))
    ∧ (∀ text pattern : GoStr, fuzzyMatch text pattern = 0 ∨ 0 < fuzzyMatch text pattern)
    ∧ (∀ text : GoStr, fuzzyMatch text [] = 0)
    ∧ (∀ text : GoStr, goBase text ≠ []) :=
  ⟨fuzzyMatch_pos_iff, fuzzyMatch_zero_or_pos, fun _ => rfl, goBase_ne_nil⟩

/-- C3 counterexample: the claim asserts `fuzzyMatch("", pattern) == 0`
for any non-empty pattern, but `filepath.Base("") = "."`, so the
pattern `"."` matches the basename of the empty text and scores 107. -/
theorem fuzzyMatch_empty_text_counterexample :
    fuzzyMatch [] ['.'] = 107 ∧ ¬ fuzzyMatch [] ['.'] = 0 := by
  constructor
  · decide
  · decide

/-- C3 witness: the characterization evaluated at concrete inputs —
`"b"` is not a subsequence of `"a"` (score 0 by the backward direction),
and `"b"` is a subsequence of `"ab"` (score positive). -/
theorem fuzzyMatch_positive_characterization_witness :
    (0 < fuzzyMatch ['a', 'b'] ['b'])
    ∧ ¬ (0 < fuzzyMatch ['a'] ['b'])
    ∧ fuzzyMatch ['a'] [] = 0 := by
  refine ⟨(fuzzyMatch_positive_characterization.1 ['a', 'b'] ['b']).mpr ⟨by decide, by decide⟩,
    fun h => ?_, fuzzyMatch_positive_characterization.2.2.1 ['a']⟩
  have h2 := (fuzzyMatch_positive_characterization.1 ['a'] ['b']).mp h
  revert h2
  decide

theorem scoreLoop_score_ub (tl : List (Char × Char)) (pl : List (Char × Char))
    (c0 : Char) (isFirst : Bool) (consec : Nat) (leading score : Int)
    (hc0 : isWordBoundary c0 = false)
    (htl : ∀ q ∈ tl, isWordBoundary q.1 = false)
    (hinv : isFirst = true → consec = 0) :
    (scoreLoop tl pl (some c0) isFirst consec leading score).score
      ≤ score + 49 * ((pl.length : Int)
          - (scoreLoop tl pl (some c0) isFirst consec leading score).rest.length) := by
  induction tl generalizing pl c0 isFirst consec leading score with
  | nil =>
    cases pl <;> simp [scoreLoop]
  | cons tp ts ih =>
    obtain ⟨tc, tcl⟩ := tp
    cases pl with
    | nil => simp [scoreLoop_nil_pattern]
    | cons pp ps =>
      obtain ⟨pc, pcl⟩ := pp
      have htc : isWordBoundary tc = false := htl (tc, tcl) (by simp)
      have hts : ∀ q ∈ ts, isWordBoundary q.1 = false := fun q hq => htl q (by simp [hq])
      simp only [scoreLoop]
      by_cases hm : pcl = tcl
      · rw [if_pos hm]
        dsimp only
        have hcur : (16 + (if pc = tc then 1 else 0) + (if isFirst = true then 32 else 0)
            + (if 0 < consec then 32 else 0)
            + (if isWordBoundary c0 = true then 8 else 0) : Int) ≤ 49 := by
          rw [hc0]
          by_cases hf : isFirst = true
          · rw [hf, hinv hf]
            norm_num
            split_ifs <;> omega
          · rw [Bool.not_eq_true] at hf
            rw [hf]
            norm_num
            split_ifs <;> omega
        have hrec := ih ps tc false (consec + 1) 0
          (score + (16 + (if pc = tc then 1 else 0) + (if isFirst = true then 32 else 0)
            + (if 0 < consec then 32 else 0)
            + (if isWordBoundary c0 = true then 8 else 0)))
          htc hts (by simp)
        have hlen := scoreLoop_rest_length_le ts ps (some tc) false (consec + 1) 0
          (score + (16 + (if pc = tc then 1 else 0) + (if isFirst = true then 32 else 0)
            + (if 0 < consec then 32 else 0)
            + (if isWordBoundary c0 = true then 8 else 0)))
        simp only [List.length_cons]
        push_cast at hrec ⊢
        omega
      · rw [if_neg hm]
        have hrec := ih ((pc, pcl) :: ps) tc isFirst 0
          (if isFirst = true ∧ leading > -12 then leading - 2 else leading)
          (if 0 < consec then score - 1 else score)
          htc hts (fun _ => rfl)
        have hlen := scoreLoop_rest_length_le ts ((pc, pcl) :: ps) (some tc) isFirst 0
          (if isFirst = true ∧ leading > -12 then leading - 2 else leading)
          (if 0 < consec then score - 1 else score)
        split_ifs at hrec ⊢ <;> push_cast at hrec ⊢ <;> omega

theorem scoreLoop_self_lb (pz tz : List (Char × Char)) (prev : Option Char)
    (isFirst : Bool) (consec : Nat) (leading score : Int)
    (hstart : isFirst = true ∨ 0 < consec) :
    (scoreLoop (pz ++ tz) pz prev isFirst consec leading score).rest = []
    ∧ score + 49 * pz.length + (if pz ≠ [] ∧ prev = none then 8 else 0)
        ≤ (scoreLoop (pz ++ tz) pz prev isFirst consec leading score).score := by
  induction pz generalizing tz prev isFirst consec leading score with
  | nil =>
    rw [List.nil_append, scoreLoop_nil_pattern]
    simp
  | cons pp pz2 ih =>
    obtain ⟨pc, pcl⟩ := pp
    simp only [List.cons_append, scoreLoop]
    rw [if_pos trivial]
    simp only [List.append_eq, if_true]
    have hrec := ih tz (some pc) false (consec + 1) 0
      (score + (16 + 1 + (if isFirst = true then (32:Int) else 0)
        + (if 0 < consec then 32 else 0)
        + (if (match prev with | none => true | some c => isWordBoundary c) then 8 else 0)))
      (Or.inr (by omega))
    refine ⟨hrec.1, ?_⟩
    have hge := hrec.2
    have hcur : (16 + 1 + (if isFirst = true then (32:Int) else 0)
        + (if 0 < consec then 32 else 0)
        + (if (match prev with | none => true | some c => isWordBoundary c) then 8 else 0))
        ≥ 49 + (if prev = none then 8 else 0) := by
      have h32 : (if isFirst = true then (32:Int) else 0) + (if 0 < consec then 32 else 0) ≥ 32 := by
        rcases hstart with hf | hc
        · rw [hf]
          norm_num
          split_ifs <;> omega
        · rw [if_pos hc]
          split_ifs <;> omega
      have hbnd : (if (match prev with | none => true | some c => isWordBoundary c) then (8:Int) else 0)
          ≥ (if prev = none then 8 else 0) := by
        cases prev with
        | none => norm_num
        | some c =>
          have hrhs : (if (some c : Option Char) = none then (8:Int) else 0) = 0 := by simp
          rw [hrhs]
          dsimp only
          split_ifs <;> omega
      omega
    have hzero : (if pz2 ≠ [] ∧ (some pc : Option Char) = none then (8:Int) else 0) = 0 := by
      simp
    rw [hzero] at hge
    have hbump : (if (⟨pc, pcl⟩ :: pz2 : List (Char × Char)) ≠ [] ∧ prev = none then (8:Int) else 0)
        ≤ (if prev = none then 8 else 0) := by
      split_ifs <;> simp_all
    simp only [List.length_cons]
    push_cast at hge ⊢
    omega

theorem dropWhile_eq_self_of_forall (p : Char → Bool) (l : List Char)
    (h : ∀ c ∈ l, p c = false) : l.dropWhile p = l := by
  cases l with
  | nil => rfl
  | cons c cs =>
    rw [List.dropWhile_cons]
    rw [h c (by simp)]
    simp

theorem takeWhile_eq_self_of_forall (p : Char → Bool) (l : List Char)
    (h : ∀ c ∈ l, p c = true) : l.takeWhile p = l := by
  induction l with
  | nil => rfl
  | cons c cs ih =>
    rw [List.takeWhile_cons]
    rw [h c (by simp)]
    simp only [if_true]
    rw [ih (fun c2 h2 => h c2 (by simp [h2]))]

theorem goBase_of_no_slash (l : GoStr) (hne : l ≠ []) (h : ∀ c ∈ l, c ≠ '/') :
    goBase l = l := by
  unfold goBase
  rw [if_neg hne]
  have hdrop : l.reverse.dropWhile (fun c => c = '/') = l.reverse := by
    apply dropWhile_eq_self_of_forall
    intro c hc
    simp only [decide_eq_false_iff_not]
    exact h c (List.mem_reverse.mp hc)
  have htake : l.reverse.takeWhile (fun c => c ≠ '/') = l.reverse := by
    apply takeWhile_eq_self_of_forall
    intro c hc
    simp only [ne_eq, decide_eq_true_eq]
    exact h c (List.mem_reverse.mp hc)
  dsimp only
  rw [hdrop, List.reverse_reverse, htake, List.reverse_reverse]
  rw [if_neg hne]

theorem fuzzyMatch_eval (text pattern : GoStr) (hbase : goBase text = text)
    (hp : pattern ≠ [])
    (hcm : canMatch (goToLower text) (goToLower pattern) = true) :
    fuzzyMatch text pattern
      = (scoreLoop (text.zip (goToLower text)) (pattern.zip (goToLower pattern)) none true 0 0 0).score
        + (((50 * pattern.length) / text.length : Nat) : Int) := by
  have hrest : (scoreLoop (text.zip (goToLower text)) (pattern.zip (goToLower pattern))
      none true 0 0 0).rest = [] := by
    rw [scoreLoop_rest_nil_iff, zip_lower_snd, zip_lower_snd]
    exact hcm
  have hlead : (scoreLoop (text.zip (goToLower text)) (pattern.zip (goToLower pattern))
      none true 0 0 0).leading = 0 := by
    apply scoreLoop_leading_zero _ _ _ _ _ _ _ _ hrest
    intro hz
    apply hp
    have h2 := congrArg List.length hz
    rw [zip_lower_length] at h2
    exact List.length_eq_zero.mp h2
  unfold fuzzyMatch
  rw [if_neg (fun h => hp (List.length_eq_zero.mp h))]
  dsimp only
  rw [hbase]
  rw [if_neg (not_not_intro hcm)]
  unfold calculateFuzzyScore
  rw [if_neg (not_not_intro hrest)]
  dsimp only
  rw [hlead]
  omega

/-- C9 (amended): when the non-empty pattern is a case-exact prefix of
one basename (containing no slash), and the strictly longer second
basename contains no word-boundary characters, starts with a character
that differs case-insensitively from the pattern's first character, and
admits the pattern only as a case-insensitive subsequence, the prefix
match scores strictly higher than the subsequence match. -/
theorem fuzzyMatch_prefix_beats_subsequence
    (p0 : Char) (ps rest1 : GoStr) (t0 : Char) (ts2 : GoStr)
    (hslash1 : ∀ c ∈ (p0 :: ps) ++ rest1, c ≠ '/')
    (hbound2 : ∀ c ∈ t0 :: ts2, isWordBoundary c = false)
    (hlonger : ((p0 :: ps) ++ rest1).length < (t0 :: ts2).length)
    (hsub : (goToLower (p0 :: ps)).Sublist (goToLower (t0 :: ts2)))
    (hmismatch : goToLowerChar t0 ≠ goToLowerChar p0) :
    fuzzyMatch (t0 :: ts2) (p0 :: ps) < fuzzyMatch ((p0 :: ps) ++ rest1) (p0 :: ps) := by
  have hpne : (p0 :: ps : GoStr) ≠ [] := by simp
  have htext1ne : ((p0 :: ps) ++ rest1 : GoStr) ≠ [] := by simp
  have htext2ne : (t0 :: ts2 : GoStr) ≠ [] := by simp
  have hbase1 : goBase ((p0 :: ps) ++ rest1) = (p0 :: ps) ++ rest1 :=
    goBase_of_no_slash _ htext1ne hslash1
  have hslash2 : ∀ c ∈ t0 :: ts2, c ≠ '/' := by
    intro c hc heq
    have hb := hbound2 c hc
    rw [heq] at hb
    simp [isWordBoundary] at hb
  have hbase2 : goBase (t0 :: ts2) = t0 :: ts2 := goBase_of_no_slash _ htext2ne hslash2
  have hcm1 : canMatch (goToLower ((p0 :: ps) ++ rest1)) (goToLower (p0 :: ps)) = true := by
    rw [canMatch_iff_sublist]
    unfold goToLower
    rw [List.map_append]
    exact List.sublist_append_left _ _
  have hcm2 : canMatch (goToLower (t0 :: ts2)) (goToLower (p0 :: ps)) = true :=
    (canMatch_iff_sublist _ _).mpr hsub
  have heval1 := fuzzyMatch_eval ((p0 :: ps) ++ rest1) (p0 :: ps) hbase1 hpne hcm1
  have heval2 := fuzzyMatch_eval (t0 :: ts2) (p0 :: ps) hbase2 hpne hcm2
  have hzipsplit : ((p0 :: ps) ++ rest1).zip (goToLower ((p0 :: ps) ++ rest1))
      = ((p0 :: ps).zip (goToLower (p0 :: ps))) ++ (rest1.zip (goToLower rest1)) := by
    unfold goToLower
    rw [List.map_append]
    exact List.zip_append (by simp)
  have hself := scoreLoop_self_lb ((p0 :: ps).zip (goToLower (p0 :: ps)))
    (rest1.zip (goToLower rest1)) none true 0 0 0 (Or.inl rfl)
  have hbump : (if ((p0 :: ps).zip (goToLower (p0 :: ps))) ≠ [] ∧ (none : Option Char) = none
      then (8 : Int) else 0) = 8 := by
    rw [if_pos ⟨by simp [goToLower], rfl⟩]
  have hscore1 : 49 * (((p0 :: ps).zip (goToLower (p0 :: ps))).length : Int) + 8
      ≤ (scoreLoop (((p0 :: ps) ++ rest1).zip (goToLower ((p0 :: ps) ++ rest1)))
          ((p0 :: ps).zip (goToLower (p0 :: ps))) none true 0 0 0).score := by
    rw [hzipsplit]
    have h2 := hself.2
    rw [hbump] at h2
    omega
  have hz2 : (t0 :: ts2).zip (goToLower (t0 :: ts2))
      = (t0, goToLowerChar t0) :: ts2.zip (goToLower ts2) := by
    unfold goToLower
    rw [List.map_cons, List.zip_cons_cons]
  have hzp : (p0 :: ps).zip (goToLower (p0 :: ps))
      = (p0, goToLowerChar p0) :: ps.zip (goToLower ps) := by
    unfold goToLower
    rw [List.map_cons, List.zip_cons_cons]
  have hstep : scoreLoop ((t0 :: ts2).zip (goToLower (t0 :: ts2)))
        ((p0 :: ps).zip (goToLower (p0 :: ps))) none true 0 0 0
      = scoreLoop (ts2.zip (goToLower ts2)) ((p0 :: ps).zip (goToLower (p0 :: ps)))
          (some t0) true 0 (-2) 0 := by
    rw [hz2, hzp]
    simp only [scoreLoop]
    rw [if_neg (fun h => hmismatch h.symm)]
    have hl2 : (if True ∧ (0 : Int) > -12 then (0 : Int) - 2 else 0) = -2 := by
      norm_num
    have hs2 : (if 0 < (0 : Nat) then (0 : Int) - 1 else 0) = 0 := by
      norm_num
    rw [hl2, hs2, ← hzp]
  have hrest2 : (scoreLoop (ts2.zip (goToLower ts2)) ((p0 :: ps).zip (goToLower (p0 :: ps)))
      (some t0) true 0 (-2) 0).rest = [] := by
    rw [← hstep, scoreLoop_rest_nil_iff, zip_lower_snd, zip_lower_snd]
    exact hcm2
  have hub := scoreLoop_score_ub (ts2.zip (goToLower ts2)) ((p0 :: ps).zip (goToLower (p0 :: ps)))
    t0 true 0 (-2) 0 (hbound2 t0 (by simp))
    (by
      intro q hq
      obtain ⟨a, b⟩ := q
      exact hbound2 a (by simp [(List.of_mem_zip hq).1]))
    (fun _ => rfl)
  rw [hrest2] at hub
  have hdiv : (50 * (p0 :: ps).length) / (t0 :: ts2).length
      ≤ (50 * (p0 :: ps).length) / ((p0 :: ps) ++ rest1).length :=
    Nat.div_le_div_left (le_of_lt hlonger) (by simp)
  have hkk := zip_lower_length (p0 :: ps)
  rw [heval1, heval2, hstep]
  simp only [List.length_nil] at hub
  omega

/-- C9 counterexample: pattern `"AB"` matches `"abxxxxxxx"` (length 9)
as a case-insensitive prefix and scores 115, while it matches the
strictly longer `".ABxxxxxxx"` (length 10) only as a non-prefix
subsequence yet scores 116 — the word-boundary bonus after `'.'` and
the two case-match bonuses outweigh the prefix advantage, so a prefix
match does not always score higher. -/
theorem fuzzyMatch_prefix_counterexample :
    fuzzyMatch ("abxxxxxxx".toList) ("AB".toList) = 115
    ∧ fuzzyMatch (".ABxxxxxxx".toList) ("AB".toList) = 116
    ∧ (goToLower ("abxxxxxxx".toList)).take 2 = goToLower ("AB".toList)
    ∧ (goToLower ("AB".toList)).Sublist (goToLower (".ABxxxxxxx".toList))
    ∧ ¬ (goToLower (".ABxxxxxxx".toList)).take 2 = goToLower ("AB".toList)
    ∧ ("abxxxxxxx".toList).length < (".ABxxxxxxx".toList).length := by
  refine ⟨by decide, by decide, by decide, by decide, by decide, by decide⟩

/-- C9 witness: the amended statement at `pattern = "a"`,
`basename1 = "ab"`, `basename2 = "xab"`. -/
theorem fuzzyMatch_prefix_beats_subsequence_witness :
    fuzzyMatch ['x', 'a', 'b'] ['a'] < fuzzyMatch (['a'] ++ ['b']) ['a'] :=
  fuzzyMatch_prefix_beats_subsequence 'a' [] ['b'] 'x' ['a', 'b']
    (by decide) (by decide) (by decide) (by decide) (by decide)

theorem recencyFactor_antitone (a1 a2 : ℝ) (h : a1 ≤ a2) :
    (if a2 > 0 then max (Real.exp (-(Real.log 2 / 30) * a2)) 0.01 else 1)
      ≤ (if a1 > 0 then max (Real.exp (-(Real.log 2 / 30) * a1)) 0.01 else 1) := by
  have hlog : 0 < Real.log 2 := Real.log_pos (by norm_num)
  by_cases h2 : a2 > 0
  · rw [if_pos h2]
    by_cases h1 : a1 > 0
    · rw [if_pos h1]
      apply max_le_max _ (le_refl (0.01 : ℝ))
      apply Real.exp_le_exp.mpr
      have hc : -(Real.log 2 / 30) ≤ 0 := by
        have : (0:ℝ) ≤ Real.log 2 / 30 := by positivity
        linarith
      exact mul_le_mul_of_nonpos_left h hc
    · rw [if_neg h1]
      apply max_le
      · rw [show (1:ℝ) = Real.exp 0 from (Real.exp_zero).symm]
        apply Real.exp_le_exp.mpr
        nlinarith
      · norm_num
  · rw [if_neg h2, if_neg (by intro h1; exact h2 (lt_of_lt_of_le h1 h))]

theorem exp_neg_nat_log2 (n : Nat) : Real.exp ((n : ℝ) * (-Real.log 2)) = ((2:ℝ)⁻¹) ^ n := by
  rw [Real.exp_nat_mul, Real.exp_neg, Real.exp_log (by norm_num : (0:ℝ) < 2)]

theorem exp_decay_600_le : Real.exp (-(Real.log 2 / 30) * 600) ≤ 0.01 := by
  have h : (-(Real.log 2 / 30) * 600 : ℝ) = (20:ℕ) * (-Real.log 2) := by push_cast; ring
  rw [h, exp_neg_nat_log2]
  norm_num

theorem exp_decay_630_le : Real.exp (-(Real.log 2 / 30) * 630) ≤ 0.01 := by
  have h : (-(Real.log 2 / 30) * 630 : ℝ) = (21:ℕ) * (-Real.log 2) := by push_cast; ring
  rw [h, exp_neg_nat_log2]
  norm_num

/-- C5 (amended): `calculateFrecency` returns `VisitCount ×
recencyFactor` with `recencyFactor = exp(-ln 2 × ageDays / 30)` floored
at 0.01 for positive age and 1.0 at age ≤ 0; the score is non-increasing
in age for fixed `VisitCount`; it halves exactly over 30 further days
whenever the decayed factor stays above the 0.01 floor (for floored ages
the score stays constant instead of halving — see the counterexample);
and for entries with `VisitCount ≥ 1` it is strictly positive, never
exactly zero. -/
theorem calculateFrecency_properties :
    (∀ (now : Int) (e : DirectoryEntry),
        calculateFrecency now e
          = (e.VisitCount : ℝ)
              * (if ((now - e.LastVisited : Int) : ℝ) / 86400 > 0
                 then max (Real.exp (-(Real.log 2 / 30)
                     * (((now - e.LastVisited : Int) : ℝ) / 86400))) 0.01
                 else 1))
    ∧ (∀ (now : Int) (e : DirectoryEntry), now = e.LastVisited →
        calculateFrecency now e = e.VisitCount)
    ∧ (∀ (now1 now2 : Int) (e : DirectoryEntry), now1 ≤ now2 →
        calculateFrecency now2 e ≤ calculateFrecency now1 e)
    ∧ (∀ (now : Int) (e : DirectoryEntry), e.LastVisited ≤ now →
        0.01 ≤ Real.exp (-(Real.log 2 / 30)
            * (((now + 2592000 - e.LastVisited : Int) : ℝ) / 86400)) →
        calculateFrecency (now + 2592000) e = calculateFrecency now e / 2)
    ∧ (∀ (now : Int) (e : DirectoryEntry), 1 ≤ e.VisitCount →
        0 < calculateFrecency now e) := by
  refine ⟨fun now e => rfl, ?_, ?_, ?_, ?_⟩
  · intro now e h
    unfold calculateFrecency
    dsimp only
    rw [h]
    norm_num
  · intro now1 now2 e h
    unfold calculateFrecency
    dsimp only
    apply mul_le_mul_of_nonneg_left _ (by positivity)
    apply recencyFactor_antitone
    apply (div_le_div_right (by norm_num : (0:ℝ) < 86400)).mpr
    have hsub : (now1 - e.LastVisited : Int) ≤ (now2 - e.LastVisited : Int) := by omega
    exact_mod_cast hsub
  · intro now e hage hfl
    unfold calculateFrecency
    dsimp only
    have hA2eq : ((now + 2592000 - e.LastVisited : Int) : ℝ) / 86400
        = ((now - e.LastVisited : Int) : ℝ) / 86400 + 30 := by
      push_cast
      ring
    rw [hA2eq] at hfl ⊢
    have hApos : 0 ≤ ((now - e.LastVisited : Int) : ℝ) / 86400 := by
      apply div_nonneg _ (by norm_num)
      have h0 : (0 : Int) ≤ now - e.LastVisited := by omega
      exact_mod_cast h0
    rw [if_pos (by linarith)]
    rw [max_eq_left hfl]
    have hsplit : Real.exp (-(Real.log 2 / 30) * (((now - e.LastVisited : Int) : ℝ) / 86400 + 30))
        = Real.exp (-(Real.log 2 / 30) * (((now - e.LastVisited : Int) : ℝ) / 86400))
            * Real.exp (-(Real.log 2)) := by
      rw [← Real.exp_add]
      congr 1
      ring
    rw [hsplit, Real.exp_neg, Real.exp_log (by norm_num : (0:ℝ) < 2)]
    by_cases hA0 : ((now - e.LastVisited : Int) : ℝ) / 86400 > 0
    · rw [if_pos hA0]
      have hmono : Real.exp (-(Real.log 2 / 30) * (((now - e.LastVisited : Int) : ℝ) / 86400 + 30))
          ≤ Real.exp (-(Real.log 2 / 30) * (((now - e.LastVisited : Int) : ℝ) / 86400)) := by
        apply Real.exp_le_exp.mpr
        have hlog : 0 < Real.log 2 := Real.log_pos (by norm_num)
        nlinarith
      rw [hsplit, Real.exp_neg, Real.exp_log (by norm_num : (0:ℝ) < 2)] at hmono
      have hflr : (0.01 : ℝ) ≤ Real.exp (-(Real.log 2 / 30)
          * (((now - e.LastVisited : Int) : ℝ) / 86400)) := by
        rw [hsplit, Real.exp_neg, Real.exp_log (by norm_num : (0:ℝ) < 2)] at hfl
        have hpos : 0 < Real.exp (-(Real.log 2 / 30)
            * (((now - e.LastVisited : Int) : ℝ) / 86400)) := Real.exp_pos _
        nlinarith
      rw [max_eq_left hflr]
      ring
    · have hA0eq : ((now - e.LastVisited : Int) : ℝ) / 86400 = 0 :=
        le_antisymm (not_lt.mp hA0) hApos
      rw [if_neg hA0, hA0eq]
      rw [mul_zero, Real.exp_zero]
      ring
  · intro now e hc
    unfold calculateFrecency
    dsimp only
    apply mul_pos
    · exact_mod_cast Nat.lt_of_lt_of_le Nat.zero_lt_one hc
    · split_ifs
      · exact lt_of_lt_of_le (by norm_num) (le_max_right _ _)
      · norm_num

/-- C5 counterexample: for an entry of count 5 last visited at time 0,
the score at age 600 days and at age 630 days are both `5 × 0.01 =
1/20` — the 0.01 floor is active, so the score does not halve over
those 30 days, contradicting the claimed halving for every age. -/
theorem calculateFrecency_floor_counterexample :
    calculateFrecency 54432000
        { Path := [], VisitCount := 5, LastVisited := 0, FirstVisited := 0 } = 1/20
    ∧ calculateFrecency 51840000
        { Path := [], VisitCount := 5, LastVisited := 0, FirstVisited := 0 } = 1/20
    ∧ ¬ ((1:ℝ)/20 = (1/20)/2) := by
  refine ⟨?_, ?_, by norm_num⟩
  · unfold calculateFrecency
    dsimp only
    rw [show ((54432000 - 0 : Int) : ℝ) / 86400 = 630 from by norm_num]
    rw [if_pos (by norm_num : (630:ℝ) > 0)]
    rw [max_eq_right exp_decay_630_le]
    norm_num
  · unfold calculateFrecency
    dsimp only
    rw [show ((51840000 - 0 : Int) : ℝ) / 86400 = 600 from by norm_num]
    rw [if_pos (by norm_num : (600:ℝ) > 0)]
    rw [max_eq_right exp_decay_600_le]
    norm_num

/-- C5 witness: the amended properties at a count-1 entry last visited
at time 0 — score 1 at age 0, non-increasing over one day, exact
halving over the first 30 days, and strict positivity. -/
theorem calculateFrecency_properties_witness :
    calculateFrecency 0 { Path := [], VisitCount := 1, LastVisited := 0, FirstVisited := 0 }
      = ((1 : Nat) : ℝ)
    ∧ calculateFrecency 86400 { Path := [], VisitCount := 1, LastVisited := 0, FirstVisited := 0 }
        ≤ calculateFrecency 0 { Path := [], VisitCount := 1, LastVisited := 0, FirstVisited := 0 }
    ∧ calculateFrecency 2592000 { Path := [], VisitCount := 1, LastVisited := 0, FirstVisited := 0 }
        = calculateFrecency 0 { Path := [], VisitCount := 1, LastVisited := 0, FirstVisited := 0 } / 2
    ∧ 0 < calculateFrecency 0 { Path := [], VisitCount := 1, LastVisited := 0, FirstVisited := 0 } := by
  refine ⟨calculateFrecency_properties.2.1 0 _ rfl,
    calculateFrecency_properties.2.2.1 0 86400 _ (by norm_num),
    ?_,
    calculateFrecency_properties.2.2.2.2 0 _ (le_refl 1)⟩
  have h := calculateFrecency_properties.2.2.2.1 0
    { Path := [], VisitCount := 1, LastVisited := 0, FirstVisited := 0 } (by norm_num) ?_
  · exact h
  · rw [show ((0 + 2592000 - 0 : Int) : ℝ) / 86400 = 30 from by norm_num]
    rw [show (-(Real.log 2 / 30) * 30 : ℝ) = (1:ℕ) * (-Real.log 2) from by push_cast; ring]
    rw [exp_neg_nat_log2]
    norm_num

/-- C4: `Query`'s ranking policy.  An empty query returns all entries
in some order sorted by frecency descending, truncated to `maxResults`;
a non-empty query keeps exactly the entries with positive fuzzy score
on their basename and returns them sorted descending by the combined
score `0.6 × min(fuzzyScore/1000, 1) + 0.4 × frecency`, truncated to
`maxResults`; and over three entries of pairwise distinct frecency,
`Query("", 2)` returns exactly the top two by frecency, descending. -/
theorem Query_ranking_policy :
    (∀ (now : Int) (q : GoStr) (m : Int) (s : Store) (res : List DirectoryEntry),
        Query now q m s = some res →
          (q = [] → ∃ l, l.Perm s
              ∧ List.Sorted (fun a b => calculateFrecency now b ≤ calculateFrecency now a) l
              ∧ res = l.take m.toNat)
          ∧ (q ≠ [] → ∃ l, l.Perm (s.filter (fun e => 0 < fuzzyMatch e.Path q))
              ∧ List.Sorted (fun a b => combinedScore now q b ≤ combinedScore now q a) l
              ∧ res = l.take m.toNat))
    ∧ (∀ (now : Int) (q : GoStr) (e : DirectoryEntry),
        combinedScore now q e
          = min ((fuzzyMatch e.Path q : ℝ) / 1000) 1 * 0.6 + calculateFrecency now e * 0.4)
    ∧ (∀ (now : Int) (e1 e2 e3 : DirectoryEntry),
        calculateFrecency now e2 < calculateFrecency now e1 →
        calculateFrecency now e3 < calculateFrecency now e2 →
        Query now [] 2 [e3, e1, e2] = some [e1, e2]) := by
  refine ⟨?_, fun now q e => rfl, ?_⟩
  · intro now q m s res hq
    constructor
    · intro hqe
      subst hqe
      simp only [Query, if_pos rfl] at hq
      obtain ⟨hm, hres⟩ := goTruncate_eq_some _ _ _ hq
      haveI : IsTotal DirectoryEntry
          (fun a b => calculateFrecency now b ≤ calculateFrecency now a) :=
        ⟨fun a b => le_total _ _⟩
      haveI : IsTrans DirectoryEntry
          (fun a b => calculateFrecency now b ≤ calculateFrecency now a) :=
        ⟨fun a b c h1 h2 => le_trans h2 h1⟩
      exact ⟨List.insertionSort _ s, List.perm_insertionSort _ s,
        List.sorted_insertionSort _ s, hres⟩
    · intro hqe
      simp only [Query, if_neg hqe] at hq
      obtain ⟨hm, hres⟩ := goTruncate_eq_some _ _ _ hq
      haveI : IsTotal DirectoryEntry
          (fun a b => combinedScore now q b ≤ combinedScore now q a) :=
        ⟨fun a b => le_total _ _⟩
      haveI : IsTrans DirectoryEntry
          (fun a b => combinedScore now q b ≤ combinedScore now q a) :=
        ⟨fun a b c h1 h2 => le_trans h2 h1⟩
      exact ⟨List.insertionSort _ _, List.perm_insertionSort _ _,
        List.sorted_insertionSort _ _, hres⟩
  · intro now e1 e2 e3 h12 h23
    have h13 := lt_trans h23 h12
    simp only [Query, if_pos rfl]
    have s2 : List.orderedInsert
        (fun a b => calculateFrecency now b ≤ calculateFrecency now a) e1 [e2] = [e1, e2] := by
      simp only [List.orderedInsert]
      rw [if_pos (le_of_lt h12)]
    have s3 : List.orderedInsert
        (fun a b => calculateFrecency now b ≤ calculateFrecency now a) e3 [e1, e2]
        = [e1, e2, e3] := by
      simp only [List.orderedInsert]
      rw [if_neg (not_le.mpr h13), if_neg (not_le.mpr h23)]
    have s1 : List.orderedInsert
        (fun a b => calculateFrecency now b ≤ calculateFrecency now a) e2 [] = [e2] := rfl
    have hsort : List.insertionSort
        (fun a b => calculateFrecency now b ≤ calculateFrecency now a) [e3, e1, e2]
        = [e1, e2, e3] := by
      simp only [List.insertionSort]
      rw [s1, s2, s3]
    rw [hsort]
    unfold goTruncate
    rw [if_pos (by norm_num), if_pos (by norm_num)]
    rfl

/-- C4 witness: three entries with visit counts 10, 5, 1, all visited
at time 0, queried at time 0 with the empty query and `maxResults = 2`:
the result is exactly the two highest-frecency entries in descending
order, and it satisfies the general sorted-permutation-truncation
characterization. -/
theorem Query_ranking_policy_witness :
    Query 0 [] 2
        [{ Path := ['c'], VisitCount := 1, LastVisited := 0, FirstVisited := 0 },
         { Path := ['a'], VisitCount := 10, LastVisited := 0, FirstVisited := 0 },
         { Path := ['b'], VisitCount := 5, LastVisited := 0, FirstVisited := 0 }]
      = some [{ Path := ['a'], VisitCount := 10, LastVisited := 0, FirstVisited := 0 },
              { Path := ['b'], VisitCount := 5, LastVisited := 0, FirstVisited := 0 }]
    ∧ ∃ l, l.Perm [{ Path := ['c'], VisitCount := 1, LastVisited := 0, FirstVisited := 0 },
         { Path := ['a'], VisitCount := 10, LastVisited := 0, FirstVisited := 0 },
         { Path := ['b'], VisitCount := 5, LastVisited := 0, FirstVisited := 0 }]
        ∧ List.Sorted (fun a b => calculateFrecency 0 b ≤ calculateFrecency 0 a) l
        ∧ [{ Path := ['a'], VisitCount := 10, LastVisited := 0, FirstVisited := 0 },
           { Path := ['b'], VisitCount := 5, LastVisited := 0, FirstVisited := 0 }]
            = l.take (2 : Int).toNat := by
  have hq := Query_ranking_policy.2.2 0
    { Path := ['a'], VisitCount := 10, LastVisited := 0, FirstVisited := 0 }
    { Path := ['b'], VisitCount := 5, LastVisited := 0, FirstVisited := 0 }
    { Path := ['c'], VisitCount := 1, LastVisited := 0, FirstVisited := 0 }
    (by norm_num [calculateFrecency]) (by norm_num [calculateFrecency])
  refine ⟨hq, ?_⟩
  have hgen := (Query_ranking_policy.1 0 [] 2 _ _ hq).1 rfl
  obtain ⟨l, hperm, hsorted, hres⟩ := hgen
  exact ⟨l, hperm, hsorted, hres⟩

/-- C1 witness: a two-entry store round-trips through the binary codec. -/
theorem save_load_roundTrip_witness :
    loadFile (some (saveBytes [⟨[97, 98], 3, 100, 50⟩, ⟨[99], 1, -7, -7⟩]))
      = .ok [⟨[97, 98], 3, 100, 50⟩, ⟨[99], 1, -7, -7⟩] :=
  save_load_roundTrip [⟨[97, 98], 3, 100, 50⟩, ⟨[99], 1, -7, -7⟩] (by norm_num)
    (by intro e he; fin_cases he <;> constructor <;> norm_num <;> intro b hb <;> fin_cases hb <;> norm_num)

end Zoink
